import Mathlib

/-!
Verification development for the Faulter graph-execution backend.

The Python source is shallowly embedded over exact rationals:
`SystemState` becomes an insertion-ordered association list of
`String × ℚ`, node `compute` methods become Lean functions returning
`Except` (a raised Python exception becomes an `error` value), the
NetworkX digraph becomes an explicit node list plus edge list, and the
solver (`DAGSolver.solve`, `_kahns_sort`, `_resolve_cycle_order`,
`_iterate_until_converged`) and the sweep orchestrator
(`GraphEngine.run_sweep`) are translated function by function.
Formula expressions are embedded as the exact-arithmetic fragment of
the Python expression grammar (numbers, names, unary minus, `+`, `-`,
`*`, `/`); the transcendental whitelist entries (`sqrt`, `sin`, ...)
have irrational values and are outside the embedded fragment.
-/

deriving instance DecidableEq for Except

namespace Faulter

/-- Association-list lookup, modelling Python `dict.get` /
`key in dict` on an insertion-ordered dictionary. -/
def alookup {β : Type} : List (String × β) → String → Option β
| [], _ => none
| kv :: rest, k => if kv.1 = k then some kv.2 else alookup rest k

/-- Variable store contents: `SystemState._variables`. -/
abbrev VarMap := List (String × ℚ)

/-- Modelling `SystemState.get(name, default)`. -/
def dictGet (st : VarMap) (k : String) (d : ℚ) : ℚ :=
  (alookup st k).getD d

/-- Modelling `SystemState.set(name, value)`: an existing key keeps its
position, a new key is appended (Python dict update semantics). -/
def dictSet : VarMap → String → ℚ → VarMap
| [], k, v => [(k, v)]
| kv :: rest, k, v => if kv.1 = k then (k, v) :: rest else kv :: dictSet rest k v

/-- Modelling `SystemState.has(name)` / `name in state`. -/
def dictHas (st : VarMap) (k : String) : Bool :=
  (alookup st k).isSome

/-- Loop body of `SystemState.delta`: iterate over the current
variables, and for each key that also exists in the previous snapshot
take the absolute difference, keeping the running maximum (starting
from `0.0`). -/
def deltaAux (prev : VarMap) : List (String × ℚ) → ℚ → ℚ
| [], acc => acc
| kv :: rest, acc =>
    match alookup prev kv.1 with
    | some pv =>
        let diff := |kv.2 - pv|
        deltaAux prev rest (if acc < diff then diff else acc)
    | none => deltaAux prev rest acc

/-- Modelling `SystemState.delta(previous_snapshot)`.  The Python code
returns `float("inf")` on an empty snapshot; the unbounded sentinel is
modelled as `⊤` in `WithTop ℚ`. -/
def delta (cur prev : VarMap) : WithTop ℚ :=
  if prev.isEmpty then ⊤ else ((deltaAux prev cur 0 : ℚ) : WithTop ℚ)

/-- Modelling the Python comparison `delta < threshold` (where `delta`
may be `float("inf")`, which compares greater than any threshold). -/
def deltaLt (d : WithTop ℚ) (t : ℚ) : Bool :=
  match d with
  | none => false
  | some q => decide (q < t)

/-- Failure cause inside a formula evaluation, modelling the Python
exception wrapped by `FormulaNode.compute` (`NameError` for an
undefined name, `ZeroDivisionError` for division by zero). -/
inductive EvalCause where
| nameError (name : String)
| zeroDivision
deriving DecidableEq

/-- Arithmetic expressions: the exact-arithmetic fragment of the
Python expression grammar evaluated by `FormulaNode.compute`. -/
inductive Expr where
| num (q : ℚ)
| var (name : String)
| neg (a : Expr)
| add (a b : Expr)
| sub (a b : Expr)
| mul (a b : Expr)
| div (a b : Expr)
deriving DecidableEq

/-- Expression evaluation against the namespace built from the current
store, modelling `eval(expression, {"__builtins__": {}}, namespace)`
restricted to the arithmetic fragment: a name not present in the
namespace raises `NameError`; float division by zero raises
`ZeroDivisionError`. -/
def evalExpr (st : VarMap) : Expr → Except EvalCause ℚ
| .num q => .ok q
| .var n =>
    match alookup st n with
    | some v => .ok v
    | none => .error (.nameError n)
| .neg a =>
    match evalExpr st a with
    | .error c => .error c
    | .ok x => .ok (-x)
| .add a b =>
    match evalExpr st a with
    | .error c => .error c
    | .ok x =>
        match evalExpr st b with
        | .error c => .error c
        | .ok y => .ok (x + y)
| .sub a b =>
    match evalExpr st a with
    | .error c => .error c
    | .ok x =>
        match evalExpr st b with
        | .error c => .error c
        | .ok y => .ok (x - y)
| .mul a b =>
    match evalExpr st a with
    | .error c => .error c
    | .ok x =>
        match evalExpr st b with
        | .error c => .error c
        | .ok y => .ok (x * y)
| .div a b =>
    match evalExpr st a with
    | .error c => .error c
    | .ok x =>
        match evalExpr st b with
        | .error c => .error c
        | .ok y => if y = 0 then .error .zeroDivision else .ok (x / y)

/-- The error raised by `FormulaNode.compute`: the Python `ValueError`
message interpolates the node id and the expression text and chains the
underlying exception (`from exc`); the embedding carries those three
pieces of data directly. -/
structure EvalErr where
  node_id : String
  expression : Expr
  cause : EvalCause
deriving DecidableEq

/-- The `BaseNode` attributes shared by all node variants. -/
structure NodeData where
  node_id : String
  inputs : List String
  outputs : List String
deriving DecidableEq

/-- Node variants, each carrying its `params` resolved to the fields its
`compute` reads (Python reads them with `params.get(key, default)`).
`MotorNode` multiplies by the transcendental constant `2π/60` and is
outside the exact-rational fragment, so it is not embedded; no claim
mentions it. -/
inductive BaseNode where
| heater (d : NodeData) (r0 alpha t0 voltage : ℚ)
| hydraulic (d : NodeData) (voltage efficiency : ℚ)
| formula (d : NodeData) (expression : Expr)
| sweep (d : NodeData) (sweep_var output_var : String) (min_val max_val : ℚ) (steps : Nat)
deriving DecidableEq

/-- Modelling `node.compute(state)` for each embedded variant, mirroring
`HeaterNode.compute`, `HydraulicNode.compute`, `FormulaNode.compute`
and `SweepNode.compute` from `app/core/nodes.py`. -/
def BaseNode.compute : BaseNode → VarMap → Except EvalErr VarMap
| .heater d r0 alpha t0 voltage, st =>
    let temperature := dictGet st (d.inputs.head?.getD "temperature") 0
    let resistance := r0 * (1 + alpha * (temperature - t0))
    let current := if resistance ≠ 0 then voltage / resistance else 0
    let out_resistance := d.outputs.head?.getD "heater_resistance"
    let out_current := (d.outputs.get? 1).getD "heater_current"
    .ok (dictSet (dictSet st out_resistance resistance) out_current current)
| .hydraulic d voltage efficiency, st =>
    let pressure := dictGet st (d.inputs.head?.getD "pressure") 0
    let flow_rate := dictGet st ((d.inputs.get? 1).getD "flow_rate") 0
    let power := pressure * flow_rate
    let current := if efficiency * voltage ≠ 0 then power / (efficiency * voltage) else 0
    .ok (dictSet st (d.outputs.head?.getD "hydraulic_current") current)
| .formula d e, st =>
    match evalExpr st e with
    | .error c => .error ⟨d.node_id, e, c⟩
    | .ok v => .ok (dictSet st (d.outputs.head?.getD "formula_result") v)
| .sweep d _sv output_var _mn _mx _steps, st =>
    let val := dictGet st output_var 0
    .ok (dictSet st (d.outputs.head?.getD "sweep_result") val)

/-- The directed graph built by `DAGSolver._build_graph`: node ids in
insertion order and a duplicate-free edge list in insertion order
(NetworkX `DiGraph` stores each node and each parallel edge once). -/
structure Digraph where
  nodes : List String
  edges : List (String × String)
deriving DecidableEq

/-- Modelling `DiGraph.add_node`: a node already present is untouched,
a new one is appended. -/
def addNode (ns : List String) (n : String) : List String :=
  if n ∈ ns then ns else ns ++ [n]

/-- Modelling `DiGraph.add_edge`: creates missing endpoints and ignores
a duplicate of an existing edge. -/
def addEdge (g : Digraph) (e : String × String) : Digraph :=
  { nodes := addNode (addNode g.nodes e.1) e.2,
    edges := if e ∈ g.edges then g.edges else g.edges ++ [e] }

/-- Modelling `DAGSolver._build_graph`: `add_nodes_from(nodes.keys())`
followed by `add_edges_from(edges)`. -/
def buildGraph (keys : List String) (es : List (String × String)) : Digraph :=
  es.foldl addEdge { nodes := keys.foldl addNode [], edges := [] }

/-- Modelling `graph.successors(u)`: edge-insertion order. -/
def successors (g : Digraph) (u : String) : List String :=
  (g.edges.filter (fun e => e.1 = u)).map Prod.snd

/-- Modelling `graph.predecessors(v)`. -/
def predecessors (g : Digraph) (v : String) : List String :=
  (g.edges.filter (fun e => e.2 = v)).map Prod.fst

/-- The in-degree of `v`, as computed by the dictionary pass at the top
of `DAGSolver._kahns_sort` (and by `subgraph.in_degree(v)` in
`_resolve_cycle_order`). -/
def inDeg0 (g : Digraph) (v : String) : Int :=
  ((g.edges.filter (fun e => e.2 = v)).length : Int)

/-- Modelling `graph.subgraph(keep)`: the induced subgraph, with node
and edge iteration order inherited from the original graph. -/
def subgraphOn (g : Digraph) (keep : List String) : Digraph :=
  { nodes := g.nodes.filter (fun n => n ∈ keep),
    edges := g.edges.filter (fun e => e.1 ∈ keep ∧ e.2 ∈ keep) }

/-- Well-formedness facts true of every graph `_build_graph` produces. -/
structure WF (g : Digraph) : Prop where
  nodes_nodup : g.nodes.Nodup
  edges_nodup : g.edges.Nodup
  ends_mem : ∀ e ∈ g.edges, e.1 ∈ g.nodes ∧ e.2 ∈ g.nodes

/-- Nonempty edge paths: `Reach g u v` holds when the graph has a walk
of at least one edge from `u` to `v`.  A node lies on a simple cycle
(the `nx.simple_cycles` classification used by `solve`) exactly when it
reaches itself. -/
inductive Reach (g : Digraph) : String → String → Prop
| single {u v : String} : (u, v) ∈ g.edges → Reach g u v
| tail {u v w : String} : Reach g u v → (v, w) ∈ g.edges → Reach g u w

/-- One saturation step of the forward-reachability closure: add every
successor of a member not yet present. -/
def stepClosure (g : Digraph) (acc : List String) : List String :=
  acc ++ ((acc.flatMap (successors g)).filter (fun v => decide (¬ v ∈ acc))).dedup

/-- Iterated saturation. -/
def closureN (g : Digraph) : Nat → List String → List String
| 0, acc => acc
| n + 1, acc => closureN g n (stepClosure g acc)

/-- Decidable reachability: `v` is in the saturated successor closure
of `u`.  Fuel `g.nodes.length + 1` is enough to reach the fixpoint. -/
def reachB (g : Digraph) (u v : String) : Bool :=
  decide (v ∈ closureN g (g.nodes.length + 1) (successors g u))

/-- The set of nodes participating in at least one cycle — the union of
`nx.simple_cycles(graph)` computed in `DAGSolver.solve` — listed in
graph node order. -/
def cyclicNodes (g : Digraph) : List String :=
  g.nodes.filter (fun v => reachB g v v)

/-- The number of edges into `v` whose source has already been placed
in `res` — the amount by which Kahn's loop has decremented `v`'s
in-degree so far. -/
def countFrom (g : Digraph) (res : List String) (v : String) : Nat :=
  (g.edges.filter (fun e => decide (e.2 = v ∧ e.1 ∈ res))).length

/-- The loop invariant of Kahn's algorithm relating the queue, the
in-degree table and the emitted result. -/
def KInv (g : Digraph) (qs : List String) (ind : String → Int) (res : List String) : Prop :=
  (res ++ qs).Nodup ∧
  (∀ v ∈ res, v ∈ g.nodes) ∧
  (∀ v ∈ qs, v ∈ g.nodes) ∧
  (∀ v, ind v = inDeg0 g v - (countFrom g res v : Int)) ∧
  (∀ v ∈ g.nodes, (v ∈ qs ↔ ind v = 0 ∧ v ∉ res)) ∧
  (∀ v ∈ res, ind v ≤ 0) ∧
  (∀ u v, (u, v) ∈ g.edges → v ∈ res → [u, v].Sublist res)

/-- The solver configuration (`DAGSolver.__init__`). -/
structure SolverCfg where
  convergence_threshold : ℚ
  max_iterations : Nat
deriving DecidableEq

/-- `DEFAULT_CONVERGENCE_THRESHOLD = 0.001`,
`DEFAULT_MAX_ITERATIONS = 100`. -/
def defaultCfg : SolverCfg := { convergence_threshold := 1 / 1000, max_iterations := 100 }

/-- The node map built by the graph builder: id → node, in insertion
order (a Python dict, so the keys are unique). -/
abbrev NodeMap := List (String × BaseNode)

/-- Modelling `nodes.get(node_id)` / `node_id in nodes`. -/
def lookupNode (nodes : NodeMap) (nid : String) : Option BaseNode :=
  alookup nodes nid

/-- Modelling the solver's execution loops: for each id in `order`, if
the id is in the node map, invoke its `compute` and append the id to
the execution log; a raised exception propagates. -/
def runNodes (nodes : NodeMap) : List String → VarMap → List String → Except EvalErr (VarMap × List String)
| [], st, log => .ok (st, log)
| nid :: rest, st, log =>
    match lookupNode nodes nid with
    | none => runNodes nodes rest st log
    | some nd =>
        match nd.compute st with
        | .error e => .error e
        | .ok st1 => runNodes nodes rest st1 (log ++ [nid])

/-- The body of `DAGSolver._kahns_sort`: pop the queue head, append it
to the result, decrement each successor's in-degree and enqueue the
successors that reach zero, in successor order. -/
def kahnLoop (g : Digraph) : Nat → List String → (String → Int) → List String → List String
| 0, _, _, result => result
| _ + 1, [], _, result => result
| fuel + 1, node :: queue, indeg, result =>
    let succs := successors g node
    let indeg1 : String → Int := fun v => if v ∈ succs then indeg v - 1 else indeg v
    let enq := succs.filter (fun v => decide (indeg v = 1))
    kahnLoop g fuel (queue ++ enq) indeg1 (result ++ [node])

/-- Modelling `DAGSolver._kahns_sort`: in-degrees over all nodes, queue
seeded with the in-degree-zero nodes in node order, then the BFS loop.
The fuel never runs out: each pop adds a fresh node to the result. -/
def kahnSort (g : Digraph) : List String :=
  kahnLoop g g.nodes.length (g.nodes.filter (fun n => decide (inDeg0 g n = 0))) (inDeg0 g) []

/-- Modelling `DAGSolver._resolve_cycle_order`: sort the cyclic nodes
by ascending in-degree within the induced subgraph.  Python `sorted` is
a stable ascending sort, matched by `List.mergeSort`. -/
def resolveCycleOrder (g : Digraph) (cyc : List String) : List String :=
  let sub := subgraphOn g cyc
  cyc.mergeSort (fun a b => decide (inDeg0 sub a ≤ inDeg0 sub b))

/-- The dependency graph `solve` builds from a node map and edge list. -/
def solveGraph (nodes : NodeMap) (edges : List (String × String)) : Digraph :=
  buildGraph (nodes.map Prod.fst) edges

/-- The non-cyclic node ids, in graph order (`acyclic_node_ids`). -/
def acyclicKeep (g : Digraph) : List String :=
  g.nodes.filter (fun n => decide (¬ n ∈ cyclicNodes g))

/-- Modelling `depends_on_cycle` in `DAGSolver.solve`: some direct
predecessor is cyclic. -/
def dependsOnCycleB (g : Digraph) (nid : String) : Bool :=
  (predecessors g nid).any (fun p => decide (p ∈ cyclicNodes g))

/-- The pre-cycle schedule: the topological order of the acyclic
subgraph restricted to nodes with no cyclic direct predecessor. -/
def preOrder (g : Digraph) : List String :=
  (kahnSort (subgraphOn g (acyclicKeep g))).filter (fun nid => ! dependsOnCycleB g nid)

/-- The post-cycle schedule: the topological order of the acyclic
subgraph restricted to nodes with a cyclic direct predecessor. -/
def postOrder (g : Digraph) : List String :=
  (kahnSort (subgraphOn g (acyclicKeep g))).filter (fun nid => dependsOnCycleB g nid)

/-- The loop of `DAGSolver._iterate_until_converged`: up to `fuel`
passes; each pass snapshots the store, runs every cycle node once (in
the fixed order) and stops when `delta` drops below the threshold. -/
def iterGo (cfg : SolverCfg) (nodes : NodeMap) (cycleOrder : List String) : Nat → VarMap → List String → Except EvalErr (VarMap × List String)
| 0, st, log => .ok (st, log)
| fuel + 1, st, log =>
    match runNodes nodes cycleOrder st [] with
    | .error e => .error e
    | .ok (st1, passLog) =>
        if deltaLt (delta st1 st) cfg.convergence_threshold then .ok (st1, log ++ passLog)
        else iterGo cfg nodes cycleOrder fuel st1 (log ++ passLog)

/-- The `for` loop of `DAGSolver._iterate_until_converged` (without the
`for ... else` epilogue — see `iterateConvergedFull`): once at least one
pass has run, exhausting the iteration budget is a soft condition and
the last state is returned. -/
def iterateConverged (cfg : SolverCfg) (nodes : NodeMap) (cycleOrder : List String) (st : VarMap) : Except EvalErr (VarMap × List String) :=
  iterGo cfg nodes cycleOrder cfg.max_iterations st []

/-- `DAGSolver._iterate_until_converged` including its `for ... else`
epilogue.  The `else` branch runs whenever the loop finishes without a
`break`; its warning evaluates `state.delta(snapshot)`.  With a zero
iteration budget the loop body never ran, `snapshot` was never
assigned, and that read raises `UnboundLocalError` — modelled as
`none`.  With a positive budget `snapshot` is bound by the last pass,
the epilogue only logs, and the loop's outcome is returned. -/
def iterateConvergedFull (cfg : SolverCfg) (nodes : NodeMap) (cycleOrder : List String) (st : VarMap) : Option (Except EvalErr (VarMap × List String)) :=
  if cfg.max_iterations = 0 then none
  else some (iterGo cfg nodes cycleOrder cfg.max_iterations st [])

/-- Pure iteration of "run one full pass over the cycle order",
used to state which store each pass of the convergence loop sees. -/
def iterStates (nodes : NodeMap) (cycleOrder : List String) : Nat → VarMap → Except EvalErr VarMap
| 0, st => .ok st
| k + 1, st =>
    match runNodes nodes cycleOrder st [] with
    | .error e => .error e
    | .ok (st1, _) => iterStates nodes cycleOrder k st1

/-- Modelling `DAGSolver.solve`: build the graph, classify cyclic
nodes, then either run a plain Kahn order (no cycles) or run pre-cycle
nodes, the convergent cyclic block, and post-cycle nodes. -/
def solve (cfg : SolverCfg) (nodes : NodeMap) (edges : List (String × String)) (state : VarMap) : Except EvalErr (VarMap × List String) :=
  let graph := buildGraph (nodes.map Prod.fst) edges
  let cyc := cyclicNodes graph
  if cyc.isEmpty then
    runNodes nodes (kahnSort graph) state []
  else
    let acyclicSub := subgraphOn graph (graph.nodes.filter (fun n => decide (¬ n ∈ cyc)))
    let acyclicOrder := kahnSort acyclicSub
    let dependsOnCycle : String → Bool := fun nid =>
      (predecessors graph nid).any (fun p => decide (p ∈ cyc))
    let pre := acyclicOrder.filter (fun nid => ! dependsOnCycle nid)
    let post := acyclicOrder.filter dependsOnCycle
    match runNodes nodes pre state [] with
    | .error e => .error e
    | .ok (st1, log1) =>
        let cycleOrder := resolveCycleOrder graph cyc
        match iterateConverged cfg nodes cycleOrder st1 with
        | .error e => .error e
        | .ok (st2, log2) =>
            match runNodes nodes post st2 [] with
            | .error e => .error e
            | .ok (st3, log3) => .ok (st3, log1 ++ log2 ++ log3)

/-- Errors raised by `GraphEngine.run_sweep`: `KeyError` for a missing
sweep node id (the spec's NotFoundError kind), `TypeError` for a node
that is not a `SweepNode` (the spec's TypeMismatchError kind), and a
propagated formula-evaluation failure. -/
inductive EngineError where
| notFoundError (node_id : String)
| typeMismatchError (node_id : String)
| evaluationError (e : EvalErr)
deriving DecidableEq

/-- The dictionary returned by `GraphEngine.run_sweep`. -/
structure SweepResult where
  sweep_var : String
  output_var : String
  sweep_values : List ℚ
  signature_vector : List ℚ
  steps : Nat
deriving DecidableEq

/-- Modelling `np.linspace(min_val, max_val, steps)` as called by
`SweepNode.get_sweep_range`: `steps` evenly spaced samples including
both endpoints; one sample yields only the start. -/
def linspace (a b : ℚ) : Nat → List ℚ
| 0 => []
| 1 => [a]
| n + 2 =>
    (List.range (n + 2)).map (fun i =>
      if i = n + 1 then b else a + (i : ℚ) * (b - a) / ((n : ℚ) + 1))

/-- The per-sample loop of `GraphEngine.run_sweep`: for each sweep
value build a fresh store from the initial assignment, force the sweep
variable, solve the whole graph, and record the output variable. -/
def sweepLoop (cfg : SolverCfg) (nodes : NodeMap) (edges : List (String × String)) (sweep_var output_var : String) (initial : VarMap) : List ℚ → Except EvalErr (List ℚ)
| [] => .ok []
| v :: rest =>
    match solve cfg nodes edges (dictSet initial sweep_var v) with
    | .error e => .error e
    | .ok (fin, _) =>
        match sweepLoop cfg nodes edges sweep_var output_var initial rest with
        | .error e => .error e
        | .ok rs => .ok (dictGet fin output_var 0 :: rs)

/-- Modelling `GraphEngine.run_sweep` after graph parsing: look up the
sweep node (KeyError if absent, TypeError if not a `SweepNode`), then
run one solve per sample and assemble the signature vector. -/
def runSweep (cfg : SolverCfg) (nodes : NodeMap) (edges : List (String × String)) (sweep_node_id : String) (initial : VarMap) : Except EngineError SweepResult :=
  match lookupNode nodes sweep_node_id with
  | none => .error (.notFoundError sweep_node_id)
  | some nd =>
      match nd with
      | .sweep _d sweep_var output_var min_val max_val steps =>
          let sweep_values := linspace min_val max_val steps
          match sweepLoop cfg nodes edges sweep_var output_var initial sweep_values with
          | .error e => .error (.evaluationError e)
          | .ok results =>
              .ok { sweep_var := sweep_var, output_var := output_var,
                    sweep_values := sweep_values, signature_vector := results,
                    steps := sweep_values.length }
      | _ => .error (.typeMismatchError sweep_node_id)

/-- Values of the Python object model as reachable from an expression
evaluated by `eval(expression, {"__builtins__": {}}, namespace)`:
numbers, plus object references obtained reflectively. -/
inductive PyVal where
| num (q : ℚ)
| obj (cls : String)
deriving DecidableEq

/-- The Python class of a value (`type(v)`), as named by `__class__`. -/
def classOf : PyVal → String
| .num _ => "float"
| .obj _ => "type"

/-- The attribute-access fragment of the Python expression grammar.
CPython `eval` parses attribute access as part of any expression; an
emptied `__builtins__` restricts only name lookup, not attribute
resolution. -/
inductive PyExpr where
| lit (q : ℚ)
| name (n : String)
| attr (e : PyExpr) (field : String)
deriving DecidableEq

/-- Evaluation of the attribute fragment under a namespace, following
CPython semantics: names resolve through the namespace (else
`NameError`), while `__class__` resolves through the object model on
every value, regardless of the namespace contents. -/
def pyEval (ns : List (String × PyVal)) : PyExpr → Except String PyVal
| .lit q => .ok (.num q)
| .name n =>
    match alookup ns n with
    | some v => .ok v
    | none => .error "NameError"
| .attr e f =>
    match pyEval ns e with
    | .error c => .error c
    | .ok v => if f = "__class__" then .ok (.obj (classOf v)) else .error "AttributeError"

/-- The linear chain of `test_dag_solver._make_simple_dag`:
A computes `1 + 1`, B computes `a_out * 2`, C computes `b_out + 10`. -/
def chainNodes : NodeMap :=
  [("A", .formula ⟨"A", [], ["a_out"]⟩ (.add (.num 1) (.num 1))),
   ("B", .formula ⟨"B", ["a_out"], ["b_out"]⟩ (.mul (.var "a_out") (.num 2))),
   ("C", .formula ⟨"C", ["b_out"], ["c_out"]⟩ (.add (.var "b_out") (.num 10)))]

/-- Edges of the linear chain A→B→C. -/
def chainEdges : List (String × String) := [("A", "B"), ("B", "C")]

/-- The mutual-feedback pair of `test_convergent_cycle`:
X computes `0.5 * y_val + 1`, Y computes `0.3 * x_val + 2`. -/
def fbNodes : NodeMap :=
  [("X", .formula ⟨"X", ["y_val"], ["x_val"]⟩ (.add (.mul (.num (1 / 2)) (.var "y_val")) (.num 1))),
   ("Y", .formula ⟨"Y", ["x_val"], ["y_val"]⟩ (.add (.mul (.num (3 / 10)) (.var "x_val")) (.num 2)))]

/-- Edges of the mutual feedback loop X→Y→X. -/
def fbEdges : List (String × String) := [("X", "Y"), ("Y", "X")]

/-- Start the feedback system from x = 0, y = 0. -/
def fbInit : VarMap := [("x_val", 0), ("y_val", 0)]

/-- Store after pass 1 of the feedback loop. -/
def fbS1 : VarMap := [("x_val", 1), ("y_val", 23 / 10)]

/-- Store after pass 2 of the feedback loop. -/
def fbS2 : VarMap := [("x_val", 43 / 20), ("y_val", 529 / 200)]

/-- Store after pass 3 of the feedback loop. -/
def fbS3 : VarMap := [("x_val", 929 / 400), ("y_val", 10787 / 4000)]

/-- Store after pass 4 of the feedback loop. -/
def fbS4 : VarMap := [("x_val", 18787 / 8000), ("y_val", 216361 / 80000)]

/-- Store after pass 5 of the feedback loop. -/
def fbS5 : VarMap := [("x_val", 376361 / 160000), ("y_val", 4329083 / 1600000)]

/-- Store after pass 6 of the feedback loop, where the delta first
drops below the default threshold. -/
def fbS6 : VarMap := [("x_val", 7529083 / 3200000), ("y_val", 86587249 / 32000000)]

/-- A one-node self-loop: K is the formula `k = 5` feeding itself. -/
def loopNodes : NodeMap := [("K", .formula ⟨"K", [], ["k"]⟩ (.num 5))]

def loopEdges : List (String × String) := [("K", "K")]

def loopGraph : Digraph := buildGraph (loopNodes.map Prod.fst) loopEdges

/-! ## Store lemmas -/

theorem alookup_mem {β : Type} {l : List (String × β)} {k : String} {v : β} (h : alookup l k = some v) : (k, v) ∈ l := by
  induction l with
  | nil => simp [alookup] at h
  | cons kv rest ih =>
      rw [alookup] at h
      by_cases hk : kv.1 = k
      · simp [hk] at h
        have he : kv = (k, v) := by
          cases kv
          simp_all
        rw [he]
        exact List.mem_cons_self _ _
      · simp [hk] at h
        exact List.mem_cons_of_mem _ (ih h)

theorem alookup_of_mem_nodup {β : Type} {l : List (String × β)} {k : String} {v : β} (hnd : (l.map Prod.fst).Nodup) (h : (k, v) ∈ l) : alookup l k = some v := by
  induction l with
  | nil => simp at h
  | cons kv rest ih =>
      simp only [List.map_cons, List.nodup_cons] at hnd
      rcases List.mem_cons.mp h with h1 | h1
      · rw [← h1, alookup]
        simp
      · have hk : kv.1 ≠ k := by
          intro he
          exact hnd.1 (he ▸ (List.mem_map.mpr ⟨(k, v), h1, rfl⟩))
        rw [alookup, if_neg hk]
        exact ih hnd.2 h1

theorem le_deltaAux (prev : VarMap) : ∀ (l : List (String × ℚ)) (acc : ℚ), acc ≤ deltaAux prev l acc := by
  intro l
  induction l with
  | nil => intro acc; simp [deltaAux]
  | cons kv rest ih =>
      intro acc
      rw [deltaAux]
      cases hl : alookup prev kv.1 with
      | none => exact ih acc
      | some pv =>
          simp only []
          refine le_trans ?_ (ih _)
          by_cases hc : acc < |kv.2 - pv|
          · simp [hc]
            exact le_of_lt hc
          · simp [hc]

theorem deltaAux_pair_le (prev : VarMap) : ∀ (l : List (String × ℚ)) (acc : ℚ) (k : String) (x pv : ℚ), (k, x) ∈ l → alookup prev k = some pv → |x - pv| ≤ deltaAux prev l acc := by
  intro l
  induction l with
  | nil => intro acc k x pv h; simp at h
  | cons kv rest ih =>
      intro acc k x pv hmem hl
      rcases List.mem_cons.mp hmem with h1 | h1
      · rw [deltaAux, ← h1]
        simp only [hl]
        refine le_trans ?_ (le_deltaAux prev rest _)
        by_cases hc : acc < |x - pv|
        · simp [hc]
        · simp [hc]
          exact le_of_not_lt hc
      · rw [deltaAux]
        cases hl2 : alookup prev kv.1 with
        | none => exact ih acc k x pv h1 hl
        | some pv2 => exact ih _ k x pv h1 hl

theorem deltaAux_attained (prev : VarMap) : ∀ (l : List (String × ℚ)) (acc : ℚ), deltaAux prev l acc = acc ∨ ∃ k x pv, (k, x) ∈ l ∧ alookup prev k = some pv ∧ deltaAux prev l acc = |x - pv| := by
  intro l
  induction l with
  | nil => intro acc; left; rfl
  | cons kv rest ih =>
      intro acc
      rw [deltaAux]
      cases hl : alookup prev kv.1 with
      | none =>
          rcases ih acc with h | ⟨k, x, pv, hm, hlk, he⟩
          · left; exact h
          · right; exact ⟨k, x, pv, List.mem_cons_of_mem _ hm, hlk, he⟩
      | some pv =>
          simp only []
          by_cases hc : acc < |kv.2 - pv|
          · simp only [if_pos hc]
            rcases ih |kv.2 - pv| with h | ⟨k, x, pv2, hm, hlk, he⟩
            · right
              exact ⟨kv.1, kv.2, pv, by simp, hl, h⟩
            · right; exact ⟨k, x, pv2, List.mem_cons_of_mem _ hm, hlk, he⟩
          · simp only [if_neg hc]
            rcases ih acc with h | ⟨k, x, pv2, hm, hlk, he⟩
            · left; exact h
            · right; exact ⟨k, x, pv2, List.mem_cons_of_mem _ hm, hlk, he⟩

/-- C5: for every store and snapshot, `delta` is the maximum absolute
difference over the keys present in both (it bounds every common key's
difference and is either zero or attained at a common key), and the
delta against an empty snapshot is the unbounded sentinel `⊤` for any
non-empty store. -/
theorem claim_C5 (cur prev : VarMap) (hnd : (cur.map Prod.fst).Nodup) (hprev : prev ≠ []) (_hcur : cur ≠ []) :
    (∀ k cv pv, alookup cur k = some cv → alookup prev k = some pv →
       ((|cv - pv| : ℚ) : WithTop ℚ) ≤ delta cur prev) ∧
    (delta cur prev = ((0 : ℚ) : WithTop ℚ) ∨
      ∃ k cv pv, alookup cur k = some cv ∧ alookup prev k = some pv ∧
        delta cur prev = ((|cv - pv| : ℚ) : WithTop ℚ)) ∧
    delta cur [] = ⊤ := by
  have hne : prev.isEmpty = false := by
    cases prev with
    | nil => exact absurd rfl hprev
    | cons a l => rfl
  refine ⟨?_, ?_, ?_⟩
  · intro k cv pv hc hp
    rw [delta, hne]
    simp only [Bool.false_eq_true, if_false]
    exact_mod_cast deltaAux_pair_le prev cur 0 k cv pv (alookup_mem hc) hp
  · rw [delta, hne]
    simp only [Bool.false_eq_true, if_false]
    rcases deltaAux_attained prev cur 0 with h | ⟨k, x, pv, hm, hlk, he⟩
    · left; exact congrArg (fun q : ℚ => (q : WithTop ℚ)) h
    · right
      exact ⟨k, x, pv, alookup_of_mem_nodup hnd hm, hlk,
        congrArg (fun q : ℚ => (q : WithTop ℚ)) he⟩
  · rw [delta]
    rfl

/-- C5 witness: the theorem applied to the concrete store
`{a ↦ 3, b ↦ 10}` and snapshot `{a ↦ 1}`. -/
theorem claim_C5_witness :
    (([("a", (3 : ℚ)), ("b", 10)] : VarMap).map Prod.fst).Nodup ∧
    ([("a", (1 : ℚ))] : VarMap) ≠ [] ∧
    (∀ k cv pv, alookup [("a", (3 : ℚ)), ("b", 10)] k = some cv → alookup [("a", (1 : ℚ))] k = some pv →
       ((|cv - pv| : ℚ) : WithTop ℚ) ≤ delta [("a", 3), ("b", 10)] [("a", 1)]) :=
  ⟨by decide, by decide,
    (claim_C5 [("a", 3), ("b", 10)] [("a", 1)] (by decide) (by decide) (by decide)).1⟩

/-! ## Sweep lemmas -/

theorem linspace_length (a b : ℚ) : ∀ n : Nat, (linspace a b n).length = n := by
  intro n
  match n with
  | 0 => rfl
  | 1 => rfl
  | m + 2 => simp [linspace]

theorem linspace_get (a b : ℚ) (m i : Nat) (h : i < m + 2) :
    (linspace a b (m + 2))[i]? = some (if i = m + 1 then b else a + (i : ℚ) * (b - a) / ((m : ℚ) + 1)) := by
  simp [linspace, List.getElem?_map, List.getElem?_range h]

theorem linspace_head (a b : ℚ) (n : Nat) (h : 1 ≤ n) : (linspace a b n).head? = some a := by
  rcases n with _ | _ | m
  · omega
  · rfl
  · have h0 : (linspace a b (m + 2))[0]? = some a := by
      rw [linspace_get a b m 0 (by omega)]
      simp
    rw [List.head?_eq_getElem?]
    exact h0

theorem linspace_last (a b : ℚ) (n : Nat) (h : 2 ≤ n) : (linspace a b n).getLast? = some b := by
  rcases n with _ | _ | m
  · omega
  · omega
  · rw [List.getLast?_eq_getElem?, linspace_length]
    have : m + 2 - 1 = m + 1 := by omega
    rw [this, linspace_get a b m (m + 1) (by omega)]
    simp

theorem linspace_spacing (a b : ℚ) (n i : Nat) (h2 : 2 ≤ n) (hi : i + 1 < n) :
    ∀ x y, (linspace a b n)[i]? = some x → (linspace a b n)[i + 1]? = some y →
      y - x = (b - a) / ((n : ℚ) - 1) := by
  intro x y hx hy
  rcases n with _ | _ | m
  · omega
  · omega
  · rw [linspace_get a b m i (by omega)] at hx
    rw [linspace_get a b m (i + 1) (by omega)] at hy
    have hne : ((m : ℚ) + 1) ≠ 0 := by positivity
    have hcast : ((m + 2 : ℕ) : ℚ) - 1 = (m : ℚ) + 1 := by push_cast; ring
    have hine : i ≠ m + 1 := by omega
    rw [if_neg hine] at hx
    by_cases he : i + 1 = m + 1
    · rw [if_pos he] at hy
      have him : (i : ℚ) = (m : ℚ) := by
        have hnat : i = m := by omega
        exact_mod_cast hnat
      rw [hcast, ← Option.some_inj.mp hx, ← Option.some_inj.mp hy, him]
      field_simp
      ring
    · rw [if_neg he] at hy
      rw [hcast, ← Option.some_inj.mp hx, ← Option.some_inj.mp hy]
      push_cast
      field_simp
      ring

theorem sweepLoop_ok (cfg : SolverCfg) (nodes : NodeMap) (edges : List (String × String)) (sv ov : String) (initial : VarMap) :
    ∀ (vs rs : List ℚ), sweepLoop cfg nodes edges sv ov initial vs = .ok rs →
      rs.length = vs.length ∧
      ∀ (i : Nat) (x : ℚ), vs[i]? = some x → ∃ fin log,
        solve cfg nodes edges (dictSet initial sv x) = .ok (fin, log) ∧
        rs[i]? = some (dictGet fin ov 0) := by
  intro vs
  induction vs with
  | nil =>
      intro rs h
      rw [sweepLoop] at h
      cases h
      exact ⟨rfl, by intro i x hx; simp at hx⟩
  | cons v rest ih =>
      intro rs h
      rw [sweepLoop] at h
      cases hs : solve cfg nodes edges (dictSet initial sv v) with
      | error e => rw [hs] at h; cases h
      | ok p =>
          rw [hs] at h
          cases hrest : sweepLoop cfg nodes edges sv ov initial rest with
          | error e => rw [hrest] at h; cases h
          | ok rs2 =>
              rw [hrest] at h
              cases h
              obtain ⟨hlen, hidx⟩ := ih rs2 hrest
              refine ⟨by simp [hlen], ?_⟩
              intro i x hx
              match i with
              | 0 =>
                  simp at hx
                  exact ⟨p.1, p.2, by rw [← hx]; exact hs, by simp⟩
              | j + 1 =>
                  simp at hx
                  obtain ⟨fin, log, h1, h2⟩ := hidx j x (by simpa using hx)
                  exact ⟨fin, log, h1, by simpa using h2⟩

/-- C6: a sweep over `[min, max]` with step count N produces N samples
that are evenly spaced and include both endpoints (N = 1 yields only
the minimum); for each sample in order, the graph is solved on a fresh
store built from the initial assignment with the sweep variable forced
to the sample, and the configured output variable's value is recorded
as the corresponding signature-vector entry. -/
theorem claim_C6 (cfg : SolverCfg) (nodes : NodeMap) (edges : List (String × String)) (sid : String) (initial : VarMap) (d : NodeData) (sv ov : String) (mn mx : ℚ) (steps : Nat) (res : SweepResult)
    (hlook : lookupNode nodes sid = some (.sweep d sv ov mn mx steps))
    (hrun : runSweep cfg nodes edges sid initial = .ok res) :
    res.sweep_values.length = steps ∧
    res.signature_vector.length = steps ∧
    (1 ≤ steps → res.sweep_values.head? = some mn) ∧
    (2 ≤ steps → res.sweep_values.getLast? = some mx) ∧
    (steps = 1 → res.sweep_values = [mn]) ∧
    (∀ (i : Nat), 2 ≤ steps → i + 1 < steps → ∀ (x y : ℚ),
       res.sweep_values[i]? = some x → res.sweep_values[i + 1]? = some y →
         y - x = (mx - mn) / ((steps : ℚ) - 1)) ∧
    (∀ (i : Nat) (x : ℚ), res.sweep_values[i]? = some x → ∃ fin log,
       solve cfg nodes edges (dictSet initial sv x) = .ok (fin, log) ∧
       res.signature_vector[i]? = some (dictGet fin ov 0)) := by
  rw [runSweep, hlook] at hrun
  simp only [] at hrun
  cases hsl : sweepLoop cfg nodes edges sv ov initial (linspace mn mx steps) with
  | error e => rw [hsl] at hrun; cases hrun
  | ok results =>
      rw [hsl] at hrun
      cases hrun
      obtain ⟨hlen, hidx⟩ := sweepLoop_ok cfg nodes edges sv ov initial _ _ hsl
      refine ⟨linspace_length mn mx steps, by rw [hlen, linspace_length], ?_, ?_, ?_, ?_, ?_⟩
      · intro h; exact linspace_head mn mx steps h
      · intro h; exact linspace_last mn mx steps h
      · intro h; rw [h]; rfl
      · intro i h2 hi x y hx hy
        exact linspace_spacing mn mx steps i h2 hi x y hx hy
      · intro i x hx
        exact hidx i x hx

/-- C6 witness: a concrete sweep of `k` over [0, 4] in 3 steps through
the formula `out = k * 2`. -/
theorem claim_C6_witness :
    lookupNode [("F", .formula ⟨"F", [], ["out"]⟩ (.mul (.var "k") (.num 2))),
                ("S", .sweep ⟨"S", [], []⟩ "k" "out" 0 4 3)] "S" =
      some (.sweep ⟨"S", [], []⟩ "k" "out" 0 4 3) ∧
    runSweep defaultCfg
        [("F", .formula ⟨"F", [], ["out"]⟩ (.mul (.var "k") (.num 2))),
         ("S", .sweep ⟨"S", [], []⟩ "k" "out" 0 4 3)] [] "S" [] =
      .ok { sweep_var := "k", output_var := "out", sweep_values := [0, 2, 4],
            signature_vector := [0, 4, 8], steps := 3 } ∧
    ([0, 2, 4] : List ℚ).length = 3 := by
  refine ⟨by decide, by with_unfolding_all decide, ?_⟩
  have h := claim_C6 defaultCfg
    [("F", .formula ⟨"F", [], ["out"]⟩ (.mul (.var "k") (.num 2))),
     ("S", .sweep ⟨"S", [], []⟩ "k" "out" 0 4 3)] [] "S" []
    ⟨"S", [], []⟩ "k" "out" 0 4 3
    { sweep_var := "k", output_var := "out", sweep_values := [0, 2, 4],
      signature_vector := [0, 4, 8], steps := 3 }
    (by decide) (by with_unfolding_all decide)
  exact h.1

/-- C7: a sweep request for an id absent from the node map fails with
the NotFoundError kind (Python `KeyError`), and a sweep request for a
node that is not a `SweepNode` fails with the TypeMismatchError kind
(Python `TypeError`); in both cases `run_sweep` returns before solving
anything, so no node runs and no sample is produced. -/
theorem claim_C7 (cfg : SolverCfg) (nodes : NodeMap) (edges : List (String × String)) (sid : String) (initial : VarMap) :
    (lookupNode nodes sid = none →
       runSweep cfg nodes edges sid initial = .error (.notFoundError sid)) ∧
    (∀ nd, lookupNode nodes sid = some nd →
       (∀ d sv ov mn mx steps, nd ≠ BaseNode.sweep d sv ov mn mx steps) →
       runSweep cfg nodes edges sid initial = .error (.typeMismatchError sid)) := by
  constructor
  · intro h
    rw [runSweep, h]
  · intro nd h hne
    rw [runSweep, h]
    cases nd with
    | heater d r0 alpha t0 voltage => rfl
    | hydraulic d voltage efficiency => rfl
    | formula d e => rfl
    | sweep d sv ov mn mx steps => exact absurd rfl (hne d sv ov mn mx steps)

/-- C7 witness: the theorem applied to a map without "nope" and with a
formula node at "A". -/
theorem claim_C7_witness :
    lookupNode chainNodes "nope" = none ∧
    runSweep defaultCfg chainNodes chainEdges "nope" [] = .error (.notFoundError "nope") ∧
    runSweep defaultCfg chainNodes chainEdges "A" [] = .error (.typeMismatchError "A") := by
  refine ⟨by decide, ?_, ?_⟩
  · exact (claim_C7 defaultCfg chainNodes chainEdges "nope" []).1 (by decide)
  · exact (claim_C7 defaultCfg chainNodes chainEdges "A" []).2
      (.formula ⟨"A", [], ["a_out"]⟩ (.add (.num 1) (.num 1))) (by decide)
      (by intro d sv ov mn mx steps h; cases h)

/-! ## Formula-evaluation lemmas -/

theorem evalExpr_error_cases (st : VarMap) : ∀ (e : Expr) (c : EvalCause), evalExpr st e = .error c → (∃ n, c = .nameError n ∧ alookup st n = none) ∨ c = .zeroDivision := by
  intro e
  induction e with
  | num q => intro c h; rw [evalExpr] at h; cases h
  | var n =>
      intro c h
      rw [evalExpr] at h
      cases hl : alookup st n with
      | some v => rw [hl] at h; cases h
      | none =>
          rw [hl] at h
          cases h
          exact Or.inl ⟨n, rfl, hl⟩
  | neg a iha =>
      intro c h
      rw [evalExpr] at h
      cases ha : evalExpr st a with
      | error ca => rw [ha] at h; cases h; exact iha c ha
      | ok x => rw [ha] at h; cases h
  | add a b iha ihb =>
      intro c h
      rw [evalExpr] at h
      cases ha : evalExpr st a with
      | error ca => rw [ha] at h; cases h; exact iha c ha
      | ok x =>
          rw [ha] at h
          cases hb : evalExpr st b with
          | error cb => rw [hb] at h; cases h; exact ihb c hb
          | ok y => rw [hb] at h; cases h
  | sub a b iha ihb =>
      intro c h
      rw [evalExpr] at h
      cases ha : evalExpr st a with
      | error ca => rw [ha] at h; cases h; exact iha c ha
      | ok x =>
          rw [ha] at h
          cases hb : evalExpr st b with
          | error cb => rw [hb] at h; cases h; exact ihb c hb
          | ok y => rw [hb] at h; cases h
  | mul a b iha ihb =>
      intro c h
      rw [evalExpr] at h
      cases ha : evalExpr st a with
      | error ca => rw [ha] at h; cases h; exact iha c ha
      | ok x =>
          rw [ha] at h
          cases hb : evalExpr st b with
          | error cb => rw [hb] at h; cases h; exact ihb c hb
          | ok y => rw [hb] at h; cases h
  | div a b iha ihb =>
      intro c h
      rw [evalExpr] at h
      cases ha : evalExpr st a with
      | error ca => rw [ha] at h; cases h; exact iha c ha
      | ok x =>
          rw [ha] at h
          cases hb : evalExpr st b with
          | error cb => rw [hb] at h; cases h; exact ihb c hb
          | ok y =>
              rw [hb] at h
              by_cases hz : y = 0
              · simp [hz] at h
                subst h
                exact Or.inr rfl
              · simp [hz] at h

/-- C8: whenever evaluation of a formula expression fails, `compute`
raises an evaluation error that names the node id and the offending
expression and wraps the underlying cause (which, in the embedded
arithmetic fragment, is always an undefined name or a division by
zero); no store is produced, so the variables are unchanged.  When
evaluation succeeds it raises nothing and writes the output. -/
theorem claim_C8 (d : NodeData) (e : Expr) (st : VarMap) :
    (∀ c, evalExpr st e = .error c →
       (BaseNode.formula d e).compute st =
         .error { node_id := d.node_id, expression := e, cause := c } ∧
       ((∃ n, c = .nameError n ∧ alookup st n = none) ∨ c = .zeroDivision)) ∧
    (∀ v, evalExpr st e = .ok v →
       (BaseNode.formula d e).compute st =
         .ok (dictSet st (d.outputs.head?.getD "formula_result") v)) := by
  constructor
  · intro c h
    constructor
    · rw [BaseNode.compute, h]
    · exact evalExpr_error_cases st e c h
  · intro v h
    rw [BaseNode.compute, h]

/-- C8 witness: the undefined name `missing` on an empty store. -/
theorem claim_C8_witness :
    evalExpr [] (.var "missing") = .error (.nameError "missing") ∧
    (BaseNode.formula ⟨"F", [], ["o"]⟩ (.var "missing")).compute [] =
      .error { node_id := "F", expression := .var "missing", cause := .nameError "missing" } :=
  ⟨by decide,
    ((claim_C8 ⟨"F", [], ["o"]⟩ (.var "missing") []).1 (.nameError "missing") (by decide)).1⟩

/-- C9 (refuting the sandbox claim): for every namespace — in
particular the one built from the store and the function whitelist —
the attribute expression `(1).__class__` evaluates successfully to a
reflective object reference, because CPython `eval` restricts only name
lookup, not attribute access; so attribute/reflection access is
reachable from a formula expression string. -/
theorem claim_C9 (ns : List (String × PyVal)) :
    pyEval ns (.attr (.lit 1) "__class__") = .ok (.obj "float") := rfl

/-! ## Concrete run of the feedback loop -/

theorem solve_cyclic_parts (cfg : SolverCfg) (nodes : NodeMap) (edges : List (String × String)) (st : VarMap)
    (cyc pre post co l1 l2 l3 : List String) (s1 s2 s3 : VarMap)
    (hcyc : cyclicNodes (buildGraph (nodes.map Prod.fst) edges) = cyc)
    (hne : cyc.isEmpty = false)
    (hpre : (kahnSort (subgraphOn (buildGraph (nodes.map Prod.fst) edges)
        ((buildGraph (nodes.map Prod.fst) edges).nodes.filter (fun n => decide (¬ n ∈ cyc))))).filter
        (fun nid => ! (predecessors (buildGraph (nodes.map Prod.fst) edges) nid).any (fun p => decide (p ∈ cyc))) = pre)
    (hpost : (kahnSort (subgraphOn (buildGraph (nodes.map Prod.fst) edges)
        ((buildGraph (nodes.map Prod.fst) edges).nodes.filter (fun n => decide (¬ n ∈ cyc))))).filter
        (fun nid => (predecessors (buildGraph (nodes.map Prod.fst) edges) nid).any (fun p => decide (p ∈ cyc))) = post)
    (hco : resolveCycleOrder (buildGraph (nodes.map Prod.fst) edges) cyc = co)
    (r1 : runNodes nodes pre st [] = .ok (s1, l1))
    (r2 : iterateConverged cfg nodes co s1 = .ok (s2, l2))
    (r3 : runNodes nodes post s2 [] = .ok (s3, l3)) :
    solve cfg nodes edges st = .ok (s3, l1 ++ l2 ++ l3) := by
  rw [solve]
  simp only [hcyc, hne, hpre, hpost, hco, r1, r2, r3, Bool.false_eq_true, if_false]

theorem iterGo_step_continue (cfg : SolverCfg) (nodes : NodeMap) (co : List String) (fuel : Nat) (st : VarMap) (log : List String) (s1 : VarMap) (p1 : List String)
    (hrun : runNodes nodes co st [] = .ok (s1, p1))
    (hd : deltaLt (delta s1 st) cfg.convergence_threshold = false) :
    iterGo cfg nodes co (fuel + 1) st log = iterGo cfg nodes co fuel s1 (log ++ p1) := by
  rw [iterGo, hrun]
  simp [hd]

theorem iterGo_step_stop (cfg : SolverCfg) (nodes : NodeMap) (co : List String) (fuel : Nat) (st : VarMap) (log : List String) (s1 : VarMap) (p1 : List String)
    (hrun : runNodes nodes co st [] = .ok (s1, p1))
    (hd : deltaLt (delta s1 st) cfg.convergence_threshold = true) :
    iterGo cfg nodes co (fuel + 1) st log = .ok (s1, log ++ p1) := by
  rw [iterGo, hrun]
  simp [hd]

set_option maxRecDepth 8000

theorem fbPass1 : runNodes fbNodes ["X", "Y"] fbInit [] = .ok (fbS1, ["X", "Y"]) := by
  simp [runNodes, lookupNode, alookup, BaseNode.compute, evalExpr, dictGet, dictSet, fbNodes, fbInit, fbS1]
  norm_num

theorem fbPass2 : runNodes fbNodes ["X", "Y"] fbS1 [] = .ok (fbS2, ["X", "Y"]) := by
  simp [runNodes, lookupNode, alookup, BaseNode.compute, evalExpr, dictGet, dictSet, fbNodes, fbS1, fbS2]
  norm_num

theorem fbPass3 : runNodes fbNodes ["X", "Y"] fbS2 [] = .ok (fbS3, ["X", "Y"]) := by
  simp [runNodes, lookupNode, alookup, BaseNode.compute, evalExpr, dictGet, dictSet, fbNodes, fbS2, fbS3]
  norm_num

theorem fbPass4 : runNodes fbNodes ["X", "Y"] fbS3 [] = .ok (fbS4, ["X", "Y"]) := by
  simp [runNodes, lookupNode, alookup, BaseNode.compute, evalExpr, dictGet, dictSet, fbNodes, fbS3, fbS4]
  norm_num

theorem fbPass5 : runNodes fbNodes ["X", "Y"] fbS4 [] = .ok (fbS5, ["X", "Y"]) := by
  simp [runNodes, lookupNode, alookup, BaseNode.compute, evalExpr, dictGet, dictSet, fbNodes, fbS4, fbS5]
  norm_num

theorem fbPass6 : runNodes fbNodes ["X", "Y"] fbS5 [] = .ok (fbS6, ["X", "Y"]) := by
  simp [runNodes, lookupNode, alookup, BaseNode.compute, evalExpr, dictGet, dictSet, fbNodes, fbS5, fbS6]
  norm_num

theorem fbIter : iterateConverged defaultCfg fbNodes ["X", "Y"] fbInit =
    .ok (fbS6, ["X", "Y", "X", "Y", "X", "Y", "X", "Y", "X", "Y", "X", "Y"]) := by
  rw [iterateConverged]
  have h1 := iterGo_step_continue defaultCfg fbNodes ["X", "Y"] 99 fbInit [] fbS1 ["X", "Y"]
    fbPass1 (by with_unfolding_all decide)
  have h2 := iterGo_step_continue defaultCfg fbNodes ["X", "Y"] 98 fbS1 ([] ++ ["X", "Y"]) fbS2 ["X", "Y"]
    fbPass2 (by with_unfolding_all decide)
  have h3 := iterGo_step_continue defaultCfg fbNodes ["X", "Y"] 97 fbS2 (([] ++ ["X", "Y"]) ++ ["X", "Y"]) fbS3 ["X", "Y"]
    fbPass3 (by with_unfolding_all decide)
  have h4 := iterGo_step_continue defaultCfg fbNodes ["X", "Y"] 96 fbS3 ((([] ++ ["X", "Y"]) ++ ["X", "Y"]) ++ ["X", "Y"]) fbS4 ["X", "Y"]
    fbPass4 (by with_unfolding_all decide)
  have h5 := iterGo_step_continue defaultCfg fbNodes ["X", "Y"] 95 fbS4 (((([] ++ ["X", "Y"]) ++ ["X", "Y"]) ++ ["X", "Y"]) ++ ["X", "Y"]) fbS5 ["X", "Y"]
    fbPass5 (by with_unfolding_all decide)
  have h6 := iterGo_step_stop defaultCfg fbNodes ["X", "Y"] 94 fbS5 ((((([] ++ ["X", "Y"]) ++ ["X", "Y"]) ++ ["X", "Y"]) ++ ["X", "Y"]) ++ ["X", "Y"]) fbS6 ["X", "Y"]
    fbPass6 (by with_unfolding_all decide)
  exact (((((h1.trans h2).trans h3).trans h4).trans h5).trans h6)

theorem fbSolve : solve defaultCfg fbNodes fbEdges fbInit =
    .ok (fbS6, ["X", "Y", "X", "Y", "X", "Y", "X", "Y", "X", "Y", "X", "Y"]) := by
  have h := solve_cyclic_parts defaultCfg fbNodes fbEdges fbInit
    ["X", "Y"] [] [] ["X", "Y"] [] (["X", "Y", "X", "Y", "X", "Y", "X", "Y", "X", "Y", "X", "Y"]) [] fbInit fbS6 fbS6
    (by with_unfolding_all decide) rfl
    (by with_unfolding_all decide) (by with_unfolding_all decide) (by with_unfolding_all decide)
    rfl fbIter rfl
  simpa using h

/-- C4: on the mutual feedback pair X: `x = 0.5·y + 1`,
Y: `y = 0.3·x + 2` started from x = y = 0, the solver with default
threshold 0.001 and cap 100 converges to x ≈ 2.3529 and y ≈ 2.7059
within 0.01, and the execution log shows more than two invocations
(six two-node iterations). -/
theorem claim_C4 :
    ∃ fin order, solve defaultCfg fbNodes fbEdges fbInit = .ok (fin, order) ∧
      |dictGet fin "x_val" 0 - 23529 / 10000| < 1 / 100 ∧
      |dictGet fin "y_val" 0 - 27059 / 10000| < 1 / 100 ∧
      2 < order.length :=
  ⟨fbS6, ["X", "Y", "X", "Y", "X", "Y", "X", "Y", "X", "Y", "X", "Y"], fbSolve,
    by with_unfolding_all decide, by with_unfolding_all decide, by decide⟩

/-! ## Graph-structure lemmas -/

theorem mem_successors {g : Digraph} {u v : String} : v ∈ successors g u ↔ (u, v) ∈ g.edges := by
  constructor
  · intro h
    obtain ⟨e, he, hv⟩ := List.mem_map.mp h
    have h1 := (List.mem_filter.mp he).1
    have h2 : e.1 = u := by
      have := (List.mem_filter.mp he).2
      simpa using this
    rw [← h2, ← hv]
    exact h1
  · intro h
    refine List.mem_map.mpr ⟨(u, v), List.mem_filter.mpr ⟨h, by simp⟩, rfl⟩

theorem mem_predecessors {g : Digraph} {u v : String} : u ∈ predecessors g v ↔ (u, v) ∈ g.edges := by
  constructor
  · intro h
    obtain ⟨e, he, hv⟩ := List.mem_map.mp h
    have h1 := (List.mem_filter.mp he).1
    have h2 : e.2 = v := by
      have := (List.mem_filter.mp he).2
      simpa using this
    rw [← h2, ← hv]
    exact h1
  · intro h
    refine List.mem_map.mpr ⟨(u, v), List.mem_filter.mpr ⟨h, by simp⟩, rfl⟩

theorem successors_nodup {g : Digraph} (hn : g.edges.Nodup) (u : String) : (successors g u).Nodup := by
  refine List.Nodup.map_on ?_ (hn.filter _)
  intro x hx y hy hxy
  have hx1 : x.1 = u := by simpa using (List.mem_filter.mp hx).2
  have hy1 : y.1 = u := by simpa using (List.mem_filter.mp hy).2
  cases x
  cases y
  simp_all

theorem mem_addNode {ns : List String} {n x : String} : x ∈ addNode ns n ↔ x ∈ ns ∨ x = n := by
  rw [addNode]
  by_cases h : n ∈ ns
  · simp only [if_pos h]
    constructor
    · exact Or.inl
    · rintro (hx | rfl)
      · exact hx
      · exact h
  · simp [if_neg h]

theorem addNode_nodup {ns : List String} {n : String} (h : ns.Nodup) : (addNode ns n).Nodup := by
  rw [addNode]
  by_cases hm : n ∈ ns
  · simpa [hm]
  · rw [if_neg hm, List.nodup_append]
    refine ⟨h, List.nodup_singleton n, ?_⟩
    intro a ha hb
    rw [List.mem_singleton] at hb
    exact hm (hb ▸ ha)

theorem addNode_sub {ns : List String} {n : String} : ns.Sublist (addNode ns n) := by
  rw [addNode]
  by_cases hm : n ∈ ns
  · simp [hm]
  · simp only [if_neg hm]
    exact List.sublist_append_left ns [n]

theorem foldl_addNode_spec : ∀ (ks : List String) (acc : List String), acc.Nodup →
    (ks.foldl addNode acc).Nodup ∧ acc.Sublist (ks.foldl addNode acc) ∧
    (∀ x, x ∈ ks.foldl addNode acc ↔ x ∈ acc ∨ x ∈ ks) := by
  intro ks
  induction ks with
  | nil => intro acc h; exact ⟨h, List.Sublist.refl acc, by simp⟩
  | cons k rest ih =>
      intro acc h
      obtain ⟨h1, h2, h3⟩ := ih (addNode acc k) (addNode_nodup h)
      refine ⟨h1, (addNode_sub).trans h2, ?_⟩
      intro x
      rw [List.foldl_cons, h3, mem_addNode]
      constructor
      · rintro ((hx | rfl) | hx)
        · exact Or.inl hx
        · exact Or.inr (by simp)
        · exact Or.inr (by simp [hx])
      · rintro (hx | hx)
        · exact Or.inl (Or.inl hx)
        · rcases List.mem_cons.mp hx with rfl | hx
          · exact Or.inl (Or.inr rfl)
          · exact Or.inr hx

theorem foldl_addNode_eq_self : ∀ (ks : List String) (acc : List String), ks.Nodup →
    (∀ k ∈ ks, k ∉ acc) → ks.foldl addNode acc = acc ++ ks := by
  intro ks
  induction ks with
  | nil => intro acc _ _; simp
  | cons k rest ih =>
      intro acc hnd hdisj
      rw [List.foldl_cons]
      have hk : k ∉ acc := hdisj k (by simp)
      have hstep : addNode acc k = acc ++ [k] := by rw [addNode, if_neg hk]
      have hrest : List.foldl addNode (acc ++ [k]) rest = (acc ++ [k]) ++ rest := by
        refine ih (acc ++ [k]) (List.nodup_cons.mp hnd).2 ?_
        intro x hx
        simp only [List.mem_append, List.mem_singleton]
        push_neg
        exact ⟨fun hc => hdisj x (by simp [hx]) hc, fun hc => (List.nodup_cons.mp hnd).1 (hc ▸ hx)⟩
      rw [hstep, hrest]
      simp

theorem addNode_append (ns : List String) (n : String) : ∃ t, addNode ns n = ns ++ t ∧ ∀ x ∈ t, x ∉ ns := by
  rw [addNode]
  by_cases hm : n ∈ ns
  · exact ⟨[], by simp [hm]⟩
  · refine ⟨[n], by simp [hm], ?_⟩
    intro x hx
    rw [List.mem_singleton] at hx
    rw [hx]
    exact hm

theorem foldl_addEdge_spec : ∀ (es : List (String × String)) (g : Digraph), g.nodes.Nodup → g.edges.Nodup →
    (∀ e ∈ g.edges, e.1 ∈ g.nodes ∧ e.2 ∈ g.nodes) →
    (es.foldl addEdge g).nodes.Nodup ∧ (es.foldl addEdge g).edges.Nodup ∧
    (∀ e ∈ (es.foldl addEdge g).edges, e.1 ∈ (es.foldl addEdge g).nodes ∧ e.2 ∈ (es.foldl addEdge g).nodes) ∧
    (∃ extra, (es.foldl addEdge g).nodes = g.nodes ++ extra ∧ ∀ x ∈ extra, x ∉ g.nodes) ∧
    (∀ e, e ∈ (es.foldl addEdge g).edges ↔ e ∈ g.edges ∨ e ∈ es) := by
  intro es
  induction es with
  | nil =>
      intro g h1 h2 h3
      exact ⟨h1, h2, h3, ⟨[], by simp⟩, by simp⟩
  | cons e rest ih =>
      intro g h1 h2 h3
      rw [List.foldl_cons]
      have hnodes : (addEdge g e).nodes.Nodup := addNode_nodup (addNode_nodup h1)
      have hedges : (addEdge g e).edges.Nodup := by
        rw [addEdge]
        by_cases hm : e ∈ g.edges
        · simpa [hm]
        · simp only [if_neg hm]
          rw [List.nodup_append]
          refine ⟨h2, List.nodup_singleton e, ?_⟩
          intro a ha hb
          rw [List.mem_singleton] at hb
          exact hm (hb ▸ ha)
      have hstep : ∃ t, (addEdge g e).nodes = g.nodes ++ t ∧ ∀ x ∈ t, x ∉ g.nodes := by
        obtain ⟨t1, ht1, ht1n⟩ := addNode_append g.nodes e.1
        obtain ⟨t2, ht2, ht2n⟩ := addNode_append (addNode g.nodes e.1) e.2
        refine ⟨t1 ++ t2, ?_, ?_⟩
        · rw [addEdge]
          simp only []
          rw [ht2, ht1, List.append_assoc]
        · intro x hx
          rcases List.mem_append.mp hx with hx | hx
          · exact ht1n x hx
          · intro hc
            exact ht2n x hx (by rw [ht1]; exact List.mem_append.mpr (Or.inl hc))
      have hends : ∀ f ∈ (addEdge g e).edges, f.1 ∈ (addEdge g e).nodes ∧ f.2 ∈ (addEdge g e).nodes := by
        intro f hf
        rw [addEdge] at hf ⊢
        simp only [] at hf ⊢
        by_cases hm : e ∈ g.edges
        · rw [if_pos hm] at hf
          obtain ⟨hl, hr⟩ := h3 f hf
          exact ⟨mem_addNode.mpr (Or.inl (mem_addNode.mpr (Or.inl hl))),
                 mem_addNode.mpr (Or.inl (mem_addNode.mpr (Or.inl hr)))⟩
        · rw [if_neg hm] at hf
          rcases List.mem_append.mp hf with hf | hf
          · obtain ⟨hl, hr⟩ := h3 f hf
            exact ⟨mem_addNode.mpr (Or.inl (mem_addNode.mpr (Or.inl hl))),
                   mem_addNode.mpr (Or.inl (mem_addNode.mpr (Or.inl hr)))⟩
          · have : f = e := by simpa using hf
            subst this
            exact ⟨mem_addNode.mpr (Or.inl (mem_addNode.mpr (Or.inr rfl))),
                   mem_addNode.mpr (Or.inr rfl)⟩
      obtain ⟨i1, i2, i3, ⟨extra1, hext1, hext1n⟩, i6⟩ := ih (addEdge g e) hnodes hedges hends
      obtain ⟨t0, ht0, ht0n⟩ := hstep
      refine ⟨i1, i2, i3, ⟨t0 ++ extra1, ?_, ?_⟩, ?_⟩
      · rw [hext1, ht0, List.append_assoc]
      · intro x hx
        rcases List.mem_append.mp hx with hx | hx
        · exact ht0n x hx
        · intro hc
          exact hext1n x hx (by rw [ht0]; exact List.mem_append.mpr (Or.inl hc))
      · intro f
        rw [i6]
        rw [addEdge]
        simp only []
        by_cases hm : e ∈ g.edges
        · rw [if_pos hm]
          constructor
          · rintro (hf | hf)
            · exact Or.inl hf
            · exact Or.inr (List.mem_cons_of_mem _ hf)
          · rintro (hf | hf)
            · exact Or.inl hf
            · rcases List.mem_cons.mp hf with rfl | hf
              · exact Or.inl hm
              · exact Or.inr hf
        · rw [if_neg hm]
          simp only [List.mem_append, List.mem_singleton, List.mem_cons]
          tauto

theorem buildGraph_base (keys : List String) (hk : keys.Nodup) : keys.foldl addNode [] = keys := by
  have := foldl_addNode_eq_self keys [] hk (by simp)
  simpa using this

theorem buildGraph_WF (keys : List String) (es : List (String × String)) : WF (buildGraph keys es) := by
  obtain ⟨h1, _, _⟩ := foldl_addNode_spec keys [] (List.nodup_nil)
  obtain ⟨g1, g2, g3, _, _⟩ := foldl_addEdge_spec es { nodes := keys.foldl addNode [], edges := [] } h1 (List.nodup_nil) (by simp)
  exact ⟨g1, g2, g3⟩

theorem mem_buildGraph_edges {keys : List String} {es : List (String × String)} {e : String × String} :
    e ∈ (buildGraph keys es).edges ↔ e ∈ es := by
  obtain ⟨h1, _, _⟩ := foldl_addNode_spec keys [] (List.nodup_nil)
  obtain ⟨_, _, _, _, g6⟩ := foldl_addEdge_spec es { nodes := keys.foldl addNode [], edges := [] } h1 (List.nodup_nil) (by simp)
  rw [buildGraph, g6]
  simp

theorem keys_subset_buildGraph {keys : List String} {es : List (String × String)} :
    ∀ k ∈ keys, k ∈ (buildGraph keys es).nodes := by
  intro k hk
  obtain ⟨h1, _, h3⟩ := foldl_addNode_spec keys [] (List.nodup_nil)
  obtain ⟨_, _, _, ⟨extra, hext, _⟩, _⟩ := foldl_addEdge_spec es { nodes := keys.foldl addNode [], edges := [] } h1 (List.nodup_nil) (by simp)
  rw [buildGraph, hext]
  exact List.mem_append.mpr (Or.inl ((h3 k).mpr (Or.inr hk)))

theorem buildGraph_nodes_filter {keys : List String} {es : List (String × String)} (hk : keys.Nodup) :
    (buildGraph keys es).nodes.filter (fun n => decide (n ∈ keys)) = keys := by
  obtain ⟨h1, _, _⟩ := foldl_addNode_spec keys [] (List.nodup_nil)
  obtain ⟨_, _, _, ⟨extra, hext, hextn⟩, _⟩ := foldl_addEdge_spec es { nodes := keys.foldl addNode [], edges := [] } h1 (List.nodup_nil) (by simp)
  rw [buildGraph, hext, buildGraph_base keys hk, List.filter_append]
  have hkeys : keys.filter (fun n => decide (n ∈ keys)) = keys :=
    List.filter_eq_self.mpr (fun a ha => by simpa using ha)
  have hextra : extra.filter (fun n => decide (n ∈ keys)) = [] := by
    refine List.filter_eq_nil_iff.mpr ?_
    intro a ha
    have := hextn a ha
    rw [buildGraph_base keys hk] at this
    simpa using this
  rw [hkeys, hextra, List.append_nil]

/-! ## Reachability lemmas -/

theorem Reach.mono {g1 g2 : Digraph} (h : ∀ e ∈ g1.edges, e ∈ g2.edges) {u v : String} (hr : Reach g1 u v) : Reach g2 u v := by
  induction hr with
  | single he => exact Reach.single (h _ he)
  | tail _ he ih => exact Reach.tail ih (h _ he)

theorem Reach.src_mem {g : Digraph} (hwf : WF g) {u v : String} (hr : Reach g u v) : u ∈ g.nodes := by
  induction hr with
  | single he => exact (hwf.ends_mem _ he).1
  | tail _ _ ih => exact ih

theorem Reach.dest_mem {g : Digraph} (hwf : WF g) {u v : String} (hr : Reach g u v) : v ∈ g.nodes := by
  induction hr with
  | single he => exact (hwf.ends_mem _ he).2
  | tail _ he _ => exact (hwf.ends_mem _ he).2

theorem Reach.head {g : Digraph} {u v w : String} (he : (u, v) ∈ g.edges) (hr : Reach g v w) : Reach g u w := by
  induction hr with
  | single h2 => exact Reach.tail (Reach.single he) h2
  | tail _ h2 ih => exact Reach.tail ih h2

theorem subset_stepClosure (g : Digraph) (acc : List String) : ∀ x ∈ acc, x ∈ stepClosure g acc := by
  intro x hx
  rw [stepClosure]
  exact List.mem_append.mpr (Or.inl hx)

theorem mem_stepClosure {g : Digraph} {acc : List String} {x : String} :
    x ∈ stepClosure g acc ↔ x ∈ acc ∨ ∃ a ∈ acc, x ∈ successors g a := by
  rw [stepClosure]
  constructor
  · intro h
    rcases List.mem_append.mp h with h | h
    · exact Or.inl h
    · rw [List.mem_dedup, List.mem_filter] at h
      obtain ⟨a, ha, hx⟩ := List.mem_flatMap.mp h.1
      exact Or.inr ⟨a, ha, hx⟩
  · rintro (h | ⟨a, ha, hx⟩)
    · exact List.mem_append.mpr (Or.inl h)
    · by_cases hin : x ∈ acc
      · exact List.mem_append.mpr (Or.inl hin)
      · refine List.mem_append.mpr (Or.inr ?_)
        rw [List.mem_dedup, List.mem_filter]
        exact ⟨List.mem_flatMap.mpr ⟨a, ha, hx⟩, by simpa using hin⟩

theorem stepClosure_nodup {g : Digraph} {acc : List String} (h : acc.Nodup) : (stepClosure g acc).Nodup := by
  rw [stepClosure, List.nodup_append]
  refine ⟨h, List.nodup_dedup _, ?_⟩
  intro a ha hb
  rw [List.mem_dedup, List.mem_filter] at hb
  have := hb.2
  simp only [decide_eq_true_eq] at this
  exact this ha

theorem stepClosure_subset_nodes {g : Digraph} (hwf : WF g) {acc : List String} (h : ∀ x ∈ acc, x ∈ g.nodes) :
    ∀ x ∈ stepClosure g acc, x ∈ g.nodes := by
  intro x hx
  rcases mem_stepClosure.mp hx with hx | ⟨a, _, hx⟩
  · exact h x hx
  · exact (hwf.ends_mem _ (mem_successors.mp hx)).2

theorem subset_closureN (g : Digraph) : ∀ (n : Nat) (acc : List String), ∀ x ∈ acc, x ∈ closureN g n acc := by
  intro n
  induction n with
  | zero => intro acc x hx; exact hx
  | succ m ih =>
      intro acc x hx
      rw [closureN]
      exact ih (stepClosure g acc) x (subset_stepClosure g acc x hx)

theorem closureN_sound (g : Digraph) (u : String) : ∀ (n : Nat) (acc : List String),
    (∀ a ∈ acc, Reach g u a) → ∀ w ∈ closureN g n acc, Reach g u w := by
  intro n
  induction n with
  | zero => intro acc h w hw; exact h w hw
  | succ m ih =>
      intro acc h w hw
      rw [closureN] at hw
      refine ih (stepClosure g acc) ?_ w hw
      intro a ha
      rcases mem_stepClosure.mp ha with ha | ⟨b, hb, ha⟩
      · exact h a ha
      · exact Reach.tail (h b hb) (mem_successors.mp ha)

theorem stepClosure_length {g : Digraph} (acc : List String) : acc.length ≤ (stepClosure g acc).length := by
  rw [stepClosure, List.length_append]
  omega

theorem stepClosure_length_lt {g : Digraph} {acc : List String} (h : stepClosure g acc ≠ acc) :
    acc.length + 1 ≤ (stepClosure g acc).length := by
  rw [stepClosure] at h ⊢
  rw [List.length_append]
  cases ht : ((acc.flatMap (successors g)).filter (fun v => decide (¬ v ∈ acc))).dedup with
  | nil => exact absurd (by rw [ht]; simp) h
  | cons a t => simp [ht]

theorem closureN_stable (g : Digraph) : ∀ (n : Nat) (acc : List String), stepClosure g acc = acc → closureN g n acc = acc := by
  intro n
  induction n with
  | zero => intro acc _; rfl
  | succ m ih =>
      intro acc h
      rw [closureN, h]
      exact ih acc h

theorem closureN_nodup (g : Digraph) : ∀ (n : Nat) (acc : List String), acc.Nodup → (closureN g n acc).Nodup := by
  intro n
  induction n with
  | zero => intro acc h; exact h
  | succ m ih => intro acc h; exact ih (stepClosure g acc) (stepClosure_nodup h)

theorem closureN_subset_nodes (g : Digraph) (hwf : WF g) : ∀ (n : Nat) (acc : List String),
    (∀ x ∈ acc, x ∈ g.nodes) → ∀ x ∈ closureN g n acc, x ∈ g.nodes := by
  intro n
  induction n with
  | zero => intro acc h; exact h
  | succ m ih => intro acc h; exact ih (stepClosure g acc) (stepClosure_subset_nodes hwf h)

theorem closureN_closed (g : Digraph) (hwf : WF g) : ∀ (fuel : Nat) (acc : List String), acc.Nodup →
    (∀ x ∈ acc, x ∈ g.nodes) → g.nodes.length + 1 ≤ acc.length + fuel →
    stepClosure g (closureN g fuel acc) = closureN g fuel acc := by
  intro fuel
  induction fuel with
  | zero =>
      intro acc hnd hsub hlen
      have hle : acc.length ≤ g.nodes.length :=
        (List.subperm_of_subset hnd (fun x hx => hsub x hx)).length_le
      omega
  | succ m ih =>
      intro acc hnd hsub hlen
      by_cases hs : stepClosure g acc = acc
      · rw [closureN, hs, closureN_stable g m acc hs, hs]
      · rw [closureN]
        refine ih (stepClosure g acc) (stepClosure_nodup hnd) (stepClosure_subset_nodes hwf hsub) ?_
        have := stepClosure_length_lt hs
        omega

theorem closed_succ_subset {g : Digraph} {S : List String} (h : stepClosure g S = S) :
    ∀ w ∈ S, ∀ x ∈ successors g w, x ∈ S := by
  intro w hw x hx
  have hm : x ∈ stepClosure g S := mem_stepClosure.mpr (Or.inr ⟨w, hw, hx⟩)
  rw [h] at hm
  exact hm

theorem reachB_sound {g : Digraph} {u v : String} (h : reachB g u v = true) : Reach g u v := by
  rw [reachB, decide_eq_true_eq] at h
  refine closureN_sound g u _ (successors g u) ?_ v h
  intro a ha
  exact Reach.single (mem_successors.mp ha)

theorem reach_complete {g : Digraph} (hwf : WF g) {u v : String} (hr : Reach g u v) : reachB g u v = true := by
  rw [reachB, decide_eq_true_eq]
  have hclosed : stepClosure g (closureN g (g.nodes.length + 1) (successors g u)) =
      closureN g (g.nodes.length + 1) (successors g u) := by
    refine closureN_closed g hwf (g.nodes.length + 1) (successors g u)
      (successors_nodup hwf.edges_nodup u) ?_ (by omega)
    intro x hx
    exact (hwf.ends_mem _ (mem_successors.mp hx)).2
  induction hr with
  | single he =>
      exact subset_closureN g _ _ _ (mem_successors.mpr he)
  | tail _ he ih =>
      exact closed_succ_subset hclosed _ ih _ (mem_successors.mpr he)

theorem reach_iff_reachB {g : Digraph} (hwf : WF g) {u v : String} : Reach g u v ↔ reachB g u v = true :=
  ⟨reach_complete hwf, reachB_sound⟩

theorem mem_cyclicNodes {g : Digraph} (hwf : WF g) {w : String} :
    w ∈ cyclicNodes g ↔ w ∈ g.nodes ∧ Reach g w w := by
  rw [cyclicNodes, List.mem_filter]
  constructor
  · intro h
    exact ⟨h.1, reachB_sound h.2⟩
  · intro h
    exact ⟨h.1, reach_complete hwf h.2⟩

theorem hasCycle_iff_cyclicNodes {g : Digraph} (hwf : WF g) :
    (∃ w, Reach g w w) ↔ cyclicNodes g ≠ [] := by
  constructor
  · rintro ⟨w, hw⟩
    intro hnil
    have hm : w ∈ cyclicNodes g := (mem_cyclicNodes hwf).mpr ⟨hw.src_mem hwf, hw⟩
    rw [hnil] at hm
    exact absurd hm (List.not_mem_nil w)
  · intro hne
    cases hc : cyclicNodes g with
    | nil => exact absurd hc hne
    | cons w t =>
        have hm : w ∈ cyclicNodes g := by rw [hc]; exact List.mem_cons_self w t
        exact ⟨w, ((mem_cyclicNodes hwf).mp hm).2⟩

theorem acyclic_of_rank {g : Digraph} (r : String → Nat) (h : ∀ e ∈ g.edges, r e.1 < r e.2) :
    ¬ ∃ w, Reach g w w := by
  have hmono : ∀ u v, Reach g u v → r u < r v := by
    intro u v hr
    induction hr with
    | single he => exact h _ he
    | tail _ he ih => exact lt_trans ih (h _ he)
  rintro ⟨w, hw⟩
  exact lt_irrefl (r w) (hmono w w hw)


theorem exists_reach_self_of_predClosed (g : Digraph) (S : List String) (hne : S ≠ [])
    (hcl : ∀ v ∈ S, ∃ u, u ∈ S ∧ (u, v) ∈ g.edges) : ∃ w, Reach g w w := by
  have hchoice : ∀ v, ∃ u, v ∈ S → (u ∈ S ∧ (u, v) ∈ g.edges) := by
    intro v
    by_cases hv : v ∈ S
    · obtain ⟨u, hu⟩ := hcl v hv
      exact ⟨u, fun _ => hu⟩
    · exact ⟨v, fun h => absurd h hv⟩
  choose f hf using hchoice
  obtain ⟨v0, hv0⟩ : ∃ v0, v0 ∈ S := by
    cases S with
    | nil => exact absurd rfl hne
    | cons a t => exact ⟨a, List.mem_cons_self a t⟩
  have hseq_mem : ∀ n, f^[n] v0 ∈ S := by
    intro n
    induction n with
    | zero => exact hv0
    | succ m ih =>
        rw [Function.iterate_succ_apply']
        exact (hf (f^[m] v0) ih).1
  have hedge : ∀ n, (f^[n + 1] v0, f^[n] v0) ∈ g.edges := by
    intro n
    rw [Function.iterate_succ_apply']
    exact (hf (f^[n] v0) (hseq_mem n)).2
  have hreach : ∀ d i, Reach g (f^[i + d + 1] v0) (f^[i] v0) := by
    intro d
    induction d with
    | zero => intro i; exact Reach.single (hedge i)
    | succ m ih =>
        intro i
        have he : (f^[i + m + 1 + 1] v0, f^[i + m + 1] v0) ∈ g.edges := hedge (i + m + 1)
        have hr := Reach.head he (ih i)
        have hidx : i + (m + 1) + 1 = i + m + 1 + 1 := by omega
        rw [hidx]
        exact hr
  have hmap : ∀ n ∈ Finset.range (S.toFinset.card + 1), f^[n] v0 ∈ S.toFinset := by
    intro n _
    exact List.mem_toFinset.mpr (hseq_mem n)
  obtain ⟨i, hi, j, hj, hij, heq⟩ := Finset.exists_ne_map_eq_of_card_lt_of_maps_to
    (by simp) hmap
  rcases lt_or_gt_of_ne hij with hlt | hgt
  · have hr := hreach (j - i - 1) i
    have hidx : i + (j - i - 1) + 1 = j := by omega
    rw [hidx] at hr
    rw [← heq] at hr
    exact ⟨f^[i] v0, hr⟩
  · have hr := hreach (i - j - 1) j
    have hidx : j + (i - j - 1) + 1 = i := by omega
    rw [hidx] at hr
    rw [heq] at hr
    exact ⟨f^[j] v0, hr⟩


/-! ## Kahn counting lemmas -/

theorem countFrom_nil (g : Digraph) (v : String) : countFrom g [] v = 0 := by
  rw [countFrom]
  simp

theorem filter_pred_append : ∀ (l : List (String × String)), l.Nodup → ∀ (res : List String) (n v : String), n ∉ res →
    (l.filter (fun e => decide (e.2 = v ∧ e.1 ∈ res ++ [n]))).length =
    (l.filter (fun e => decide (e.2 = v ∧ e.1 ∈ res))).length + (if (n, v) ∈ l then 1 else 0) := by
  intro l
  induction l with
  | nil => intro _ res n v _; simp
  | cons e t ih =>
      intro hnd res n v hn
      obtain ⟨he_t, ht⟩ := List.nodup_cons.mp hnd
      rw [List.filter_cons, List.filter_cons]
      by_cases hev : e = (n, v)
      · subst hev
        have hA : (decide (((n, v) : String × String).2 = v ∧ ((n, v) : String × String).1 ∈ res ++ [n])) = true := by
          simp
        have hB : (decide (((n, v) : String × String).2 = v ∧ ((n, v) : String × String).1 ∈ res)) = true → False := by
          intro hc
          rw [decide_eq_true_eq] at hc
          exact hn hc.2
        have hBfalse : (decide (((n, v) : String × String).2 = v ∧ ((n, v) : String × String).1 ∈ res)) = false := by
          cases hb : (decide (((n, v) : String × String).2 = v ∧ ((n, v) : String × String).1 ∈ res))
          · rfl
          · exact absurd hb hB
        rw [hA, hBfalse]
        have hmem : ((n, v) ∈ (n, v) :: t) := List.mem_cons_self _ _
        rw [if_pos hmem]
        have hnt : ((n, v) ∉ t) := he_t
        have := ih ht res n v hn
        rw [if_neg hnt] at this
        rw [if_pos rfl, if_neg (by simp : ¬ false = true)]
        simp only [List.length_cons]
        omega
      · have hiff : (decide (e.2 = v ∧ e.1 ∈ res ++ [n])) = (decide (e.2 = v ∧ e.1 ∈ res)) := by
          rw [decide_eq_decide]
          constructor
          · rintro ⟨h2, h1⟩
            rcases List.mem_append.mp h1 with h1 | h1
            · exact ⟨h2, h1⟩
            · rw [List.mem_singleton] at h1
              exfalso
              apply hev
              cases e
              simp_all
          · rintro ⟨h2, h1⟩
            exact ⟨h2, List.mem_append.mpr (Or.inl h1)⟩
        have hcond : (if (n, v) ∈ e :: t then (1 : Nat) else 0) = (if (n, v) ∈ t then 1 else 0) := by
          have hiff2 : (n, v) ∈ e :: t ↔ (n, v) ∈ t := by
            rw [List.mem_cons]
            constructor
            · rintro (h | h)
              · exact absurd h.symm hev
              · exact h
            · exact Or.inr
          exact if_congr hiff2 rfl rfl
        rw [hiff, hcond]
        have hrec := ih ht res n v hn
        cases hB : (decide (e.2 = v ∧ e.1 ∈ res))
        · simp only [Bool.false_eq_true, if_false]
          omega
        · simp only [if_true, List.length_cons]
          omega

theorem countFrom_append {g : Digraph} (hed : g.edges.Nodup) {res : List String} {n : String} (hn : n ∉ res) (v : String) :
    countFrom g (res ++ [n]) v = countFrom g res v + (if (n, v) ∈ g.edges then 1 else 0) := by
  rw [countFrom, countFrom]
  exact filter_pred_append g.edges hed res n v hn

theorem countFrom_filter_eq (g : Digraph) (res : List String) (v : String) :
    g.edges.filter (fun e => decide (e.2 = v ∧ e.1 ∈ res)) =
    (g.edges.filter (fun e => decide (e.2 = v))).filter (fun e => decide (e.1 ∈ res)) := by
  rw [List.filter_filter]
  refine List.filter_congr ?_
  intro e _
  rw [Bool.decide_and, Bool.and_comm]

theorem countFrom_le (g : Digraph) (res : List String) (v : String) :
    (countFrom g res v : Int) ≤ inDeg0 g v := by
  rw [countFrom, inDeg0, countFrom_filter_eq]
  have := List.length_filter_le (fun e => decide (e.1 ∈ res)) (g.edges.filter (fun e => decide (e.2 = v)))
  exact_mod_cast this

theorem preds_in_of_count_eq {g : Digraph} {res : List String} {v : String}
    (h : (countFrom g res v : Int) = inDeg0 g v) : ∀ u, (u, v) ∈ g.edges → u ∈ res := by
  intro u hu
  rw [countFrom, inDeg0, countFrom_filter_eq] at h
  have hlen : ((g.edges.filter (fun e => decide (e.2 = v))).filter (fun e => decide (e.1 ∈ res))).length =
      (g.edges.filter (fun e => decide (e.2 = v))).length := by exact_mod_cast h
  have heq := (List.filter_sublist (l := g.edges.filter (fun e => decide (e.2 = v)))).eq_of_length hlen
  have hmem : (u, v) ∈ g.edges.filter (fun e => decide (e.2 = v)) :=
    List.mem_filter.mpr ⟨hu, by simp⟩
  rw [← heq] at hmem
  have := (List.mem_filter.mp hmem).2
  simpa using this

theorem exists_pred_notin_of_count_lt {g : Digraph} {res : List String} {v : String}
    (h : (countFrom g res v : Int) < inDeg0 g v) : ∃ u, (u, v) ∈ g.edges ∧ u ∉ res := by
  by_contra hcon
  push_neg at hcon
  have heq : g.edges.filter (fun e => decide (e.2 = v ∧ e.1 ∈ res)) =
      g.edges.filter (fun e => decide (e.2 = v)) := by
    refine List.filter_congr ?_
    intro e he
    rw [decide_eq_decide]
    constructor
    · exact fun hx => hx.1
    · intro h2
      refine ⟨h2, ?_⟩
      have : e = (e.1, v) := by cases e; simp_all
      exact hcon e.1 (by rw [← this]; exact he)
  rw [countFrom, inDeg0, heq] at h
  omega


/-! ## Kahn loop invariant -/

theorem kahnLoop_inv (g : Digraph) (hwf : WF g) : ∀ (fuel : Nat) (qs : List String) (ind : String → Int) (res : List String),
    KInv g qs ind res → g.nodes.length ≤ res.length + fuel →
    ∃ ind2, KInv g [] ind2 (kahnLoop g fuel qs ind res) := by
  intro fuel
  induction fuel with
  | zero =>
      intro qs ind res hinv hlen
      cases qs with
      | nil => exact ⟨ind, hinv⟩
      | cons n qs2 =>
          exfalso
          obtain ⟨hnd, hres, hq, hind, hqiff, hresind, hsound⟩ := hinv
          have hn_node : n ∈ g.nodes := hq n (by simp)
          rw [List.nodup_append] at hnd
          have hresnd : res.Nodup := hnd.1
          have hdisj : n ∉ res := fun hc => hnd.2.2 hc (by simp)
          have hsp : (n :: res).Subperm g.nodes := by
            refine List.subperm_of_subset (List.nodup_cons.mpr ⟨hdisj, hresnd⟩) ?_
            intro x hx
            rcases List.mem_cons.mp hx with rfl | hx
            · exact hn_node
            · exact hres x hx
          have := hsp.length_le
          simp at this
          omega
  | succ m ih =>
      intro qs ind res hinv hlen
      cases qs with
      | nil => exact ⟨ind, hinv⟩
      | cons n qs2 =>
          obtain ⟨hnd, hres, hq, hind, hqiff, hresind, hsound⟩ := hinv
          have hn_node : n ∈ g.nodes := hq n (by simp)
          have hndapp := hnd
          rw [List.nodup_append] at hndapp
          have hresnd : res.Nodup := hndapp.1
          have hnqs : (n :: qs2).Nodup := hndapp.2.1
          have hdisjfun : ∀ a ∈ res, a ∉ n :: qs2 := fun a ha hb => hndapp.2.2 ha hb
          have hdisj : n ∉ res := fun hc => hdisjfun n hc (by simp)
          have hn_qs2 : n ∉ qs2 := (List.nodup_cons.mp hnqs).1
          have hind_n : ind n = 0 := ((hqiff n hn_node).mp (by simp)).1
          have hcount_n : (countFrom g res n : Int) = inDeg0 g n := by
            have h1 := hind n
            omega
          have hpreds : ∀ u, (u, n) ∈ g.edges → u ∈ res := preds_in_of_count_eq hcount_n
          have hsuccs_nodup : (successors g n).Nodup := successors_nodup hwf.edges_nodup n
          -- the all-predecessors-placed fact for any zero-degree vertex
          have hzero_preds : ∀ v, ind v = 0 → ∀ u, (u, v) ∈ g.edges → u ∈ res := by
            intro v hv u hu
            have h1 := hind v
            exact preds_in_of_count_eq (by omega) u hu
          -- new state abbreviations in terms of the literal loop body
          have henq_mem : ∀ x, x ∈ (successors g n).filter (fun v => decide (ind v = 1)) ↔
              (n, x) ∈ g.edges ∧ ind x = 1 := by
            intro x
            rw [List.mem_filter, mem_successors, decide_eq_true_eq]
          have hmain : ∃ ind2, KInv g [] ind2 (kahnLoop g m
              (qs2 ++ (successors g n).filter (fun v => decide (ind v = 1)))
              (fun v => if v ∈ successors g n then ind v - 1 else ind v)
              (res ++ [n])) := by
            refine ih _ _ _ ⟨?_, ?_, ?_, ?_, ?_, ?_, ?_⟩ ?_
            · -- nodup
              have hnotin_enq : ∀ a, ind a ≠ 1 → a ∉ (successors g n).filter (fun v => decide (ind v = 1)) := by
                intro a hne hc
                exact hne ((henq_mem a).mp hc).2
              rw [List.append_assoc, List.nodup_append]
              refine ⟨hresnd, ?_, ?_⟩
              · rw [List.singleton_append, List.nodup_cons]
                refine ⟨?_, ?_⟩
                · intro hc
                  rcases List.mem_append.mp hc with hc | hc
                  · exact hn_qs2 hc
                  · exact hnotin_enq n (by omega) hc
                · rw [List.nodup_append]
                  refine ⟨(List.nodup_cons.mp hnqs).2, hsuccs_nodup.filter _, ?_⟩
                  intro a ha hb
                  have ha_node : a ∈ g.nodes := hq a (List.mem_cons_of_mem _ ha)
                  have h0 := ((hqiff a ha_node).mp (List.mem_cons_of_mem _ ha)).1
                  exact hnotin_enq a (by omega) hb
              · intro a ha hb
                rw [List.singleton_append] at hb
                rcases List.mem_cons.mp hb with rfl | hb
                · exact hdisj ha
                · rcases List.mem_append.mp hb with hb | hb
                  · exact hdisjfun a ha (List.mem_cons_of_mem _ hb)
                  · exact hnotin_enq a (by have := hresind a ha; omega) hb
            · -- res subset nodes
              intro v hv
              rcases List.mem_append.mp hv with hv | hv
              · exact hres v hv
              · rw [List.mem_singleton] at hv
                subst hv
                exact hn_node
            · -- queue subset nodes
              intro v hv
              rcases List.mem_append.mp hv with hv | hv
              · exact hq v (List.mem_cons_of_mem _ hv)
              · exact (hwf.ends_mem _ ((henq_mem v).mp hv).1).2
            · -- in-degree accounting
              intro v
              beta_reduce
              have hca := countFrom_append hwf.edges_nodup hdisj v
              by_cases hv : v ∈ successors g n
              · rw [if_pos hv]
                rw [mem_successors] at hv
                rw [hca, if_pos hv, hind v]
                push_cast
                omega
              · rw [if_neg hv]
                rw [mem_successors] at hv
                rw [hca, if_neg hv, hind v]
                push_cast
                omega
            · -- queue membership characterisation
              intro v hv_node
              beta_reduce
              constructor
              · intro hv
                rcases List.mem_append.mp hv with hv | hv
                · have hold := (hqiff v hv_node).mp (List.mem_cons_of_mem _ hv)
                  have hvn : v ∉ successors g n := by
                    intro hc
                    rw [mem_successors] at hc
                    exact hdisj (hzero_preds v hold.1 n hc)
                  refine ⟨by rw [if_neg hvn]; exact hold.1, ?_⟩
                  intro hc
                  rcases List.mem_append.mp hc with hc | hc
                  · exact hold.2 hc
                  · rw [List.mem_singleton] at hc
                    exact hn_qs2 (hc ▸ hv)
                · obtain ⟨he, h1⟩ := (henq_mem v).mp hv
                  have hvs : v ∈ successors g n := mem_successors.mpr he
                  refine ⟨by rw [if_pos hvs]; omega, ?_⟩
                  intro hc
                  rcases List.mem_append.mp hc with hc | hc
                  · have := hresind v hc
                    omega
                  · rw [List.mem_singleton] at hc
                    rw [hc] at h1
                    omega
              · rintro ⟨h0, hnin⟩
                have hv_res : v ∉ res := fun hc => hnin (List.mem_append.mpr (Or.inl hc))
                have hv_ne : v ≠ n := fun hc => hnin (List.mem_append.mpr (Or.inr (by simp [hc])))
                by_cases hvs : v ∈ successors g n
                · rw [if_pos hvs] at h0
                  refine List.mem_append.mpr (Or.inr ?_)
                  rw [henq_mem]
                  exact ⟨mem_successors.mp hvs, by omega⟩
                · rw [if_neg hvs] at h0
                  have := (hqiff v hv_node).mpr ⟨h0, hv_res⟩
                  rcases List.mem_cons.mp this with hc | hc
                  · exact absurd hc hv_ne
                  · exact List.mem_append.mpr (Or.inl hc)
            · -- emitted nodes have nonpositive degree
              intro v hv
              beta_reduce
              rcases List.mem_append.mp hv with hv | hv
              · have := hresind v hv
                by_cases hvs : v ∈ successors g n
                · rw [if_pos hvs]; omega
                · rw [if_neg hvs]; omega
              · rw [List.mem_singleton] at hv
                rw [hv]
                have hvn : n ∉ successors g n := by
                  intro hc
                  rw [mem_successors] at hc
                  exact hdisj (hpreds n hc)
                rw [if_neg hvn]
                omega
            · -- order soundness
              intro u v he hv
              rcases List.mem_append.mp hv with hv | hv
              · exact (hsound u v he hv).trans (List.sublist_append_left res [n])
              · rw [List.mem_singleton] at hv
                rw [hv] at he ⊢
                have hu : u ∈ res := hpreds u he
                have h1 : [u].Sublist res := List.singleton_sublist.mpr hu
                exact h1.append (List.Sublist.refl [n])
            · -- fuel accounting
              simp only [List.length_append, List.length_singleton]
              omega
          obtain ⟨ind2, h2⟩ := hmain
          exact ⟨ind2, by rw [kahnLoop]; exact h2⟩


theorem kahnSort_inv (g : Digraph) (hwf : WF g) : ∃ ind2, KInv g [] ind2 (kahnSort g) := by
  rw [kahnSort]
  refine kahnLoop_inv g hwf g.nodes.length _ (inDeg0 g) [] ⟨?_, ?_, ?_, ?_, ?_, ?_, ?_⟩ (by simp)
  · simpa using (hwf.nodes_nodup.filter _)
  · intro v hv
    simp at hv
  · intro v hv
    exact (List.mem_filter.mp hv).1
  · intro v
    rw [countFrom_nil]
    omega
  · intro v hv
    rw [List.mem_filter]
    constructor
    · intro h
      have := h.2
      rw [decide_eq_true_eq] at this
      exact ⟨this, by simp⟩
    · intro h
      exact ⟨hv, by rw [decide_eq_true_eq]; exact h.1⟩
  · intro v hv
    simp at hv
  · intro u v _ hv
    simp at hv

theorem kahnSort_nodup (g : Digraph) (hwf : WF g) : (kahnSort g).Nodup := by
  obtain ⟨ind2, hinv⟩ := kahnSort_inv g hwf
  have := hinv.1
  simpa using this

theorem kahnSort_subset (g : Digraph) (hwf : WF g) : ∀ v ∈ kahnSort g, v ∈ g.nodes := by
  obtain ⟨ind2, hinv⟩ := kahnSort_inv g hwf
  exact hinv.2.1

theorem kahnSort_sound (g : Digraph) (hwf : WF g) {u v : String} (he : (u, v) ∈ g.edges) (hv : v ∈ kahnSort g) :
    [u, v].Sublist (kahnSort g) := by
  obtain ⟨ind2, hinv⟩ := kahnSort_inv g hwf
  exact hinv.2.2.2.2.2.2 u v he hv

theorem kahnSort_missing (g : Digraph) (hwf : WF g) {v : String} (hv : v ∈ g.nodes) (hnot : v ∉ kahnSort g) :
    ∃ u, (u, v) ∈ g.edges ∧ u ∉ kahnSort g := by
  obtain ⟨ind2, hinv⟩ := kahnSort_inv g hwf
  have hqiff := hinv.2.2.2.2.1 v hv
  have hne : ¬ (ind2 v = 0 ∧ v ∉ kahnSort g) := by
    intro hc
    have := hqiff.mpr hc
    simp at this
  have hind := hinv.2.2.2.1 v
  have hle := countFrom_le g (kahnSort g) v
  have hlt : (countFrom g (kahnSort g) v : Int) < inDeg0 g v := by
    rcases lt_or_eq_of_le hle with h | h
    · exact h
    · exfalso
      exact hne ⟨by omega, hnot⟩
  exact exists_pred_notin_of_count_lt hlt

theorem kahnSort_complete (g : Digraph) (hwf : WF g) (hacyc : ¬ ∃ w, Reach g w w) :
    ∀ v ∈ g.nodes, v ∈ kahnSort g := by
  intro v hv
  by_contra hnot
  have hSne : g.nodes.filter (fun x => decide (¬ x ∈ kahnSort g)) ≠ [] := by
    intro hc
    have : v ∈ g.nodes.filter (fun x => decide (¬ x ∈ kahnSort g)) :=
      List.mem_filter.mpr ⟨hv, by rw [decide_eq_true_eq]; exact hnot⟩
    rw [hc] at this
    exact absurd this (List.not_mem_nil v)
  refine absurd (exists_reach_self_of_predClosed g _ hSne ?_) hacyc
  intro x hx
  obtain ⟨hx_node, hx_not⟩ := List.mem_filter.mp hx
  rw [decide_eq_true_eq] at hx_not
  obtain ⟨u, hu_edge, hu_not⟩ := kahnSort_missing g hwf hx_node hx_not
  refine ⟨u, ?_, hu_edge⟩
  exact List.mem_filter.mpr ⟨(hwf.ends_mem _ hu_edge).1, by rw [decide_eq_true_eq]; exact hu_not⟩

theorem kahnSort_perm (g : Digraph) (hwf : WF g) (hacyc : ¬ ∃ w, Reach g w w) :
    (kahnSort g).Perm g.nodes := by
  refine List.Subperm.antisymm ?_ ?_
  · exact List.subperm_of_subset (kahnSort_nodup g hwf) (fun x hx => kahnSort_subset g hwf x hx)
  · exact List.subperm_of_subset hwf.nodes_nodup (fun x hx => kahnSort_complete g hwf hacyc x hx)


/-! ## Solver-level lemmas -/

theorem alookup_isSome {β : Type} : ∀ {l : List (String × β)} {k : String},
    (alookup l k).isSome = true ↔ k ∈ l.map Prod.fst := by
  intro l
  induction l with
  | nil => intro k; simp [alookup]
  | cons kv rest ih =>
      intro k
      rw [alookup]
      by_cases hk : kv.1 = k
      · simp [hk]
      · rw [if_neg hk]
        rw [ih]
        simp only [List.map_cons, List.mem_cons]
        constructor
        · exact Or.inr
        · rintro (h | h)
          · exact absurd h.symm hk
          · exact h

theorem runNodes_cons_none {nodes : NodeMap} {nid : String} {rest : List String} {st : VarMap} {log : List String}
    (hl : lookupNode nodes nid = none) :
    runNodes nodes (nid :: rest) st log = runNodes nodes rest st log := by
  rw [runNodes, hl]

theorem runNodes_cons_some {nodes : NodeMap} {nid : String} {rest : List String} {st : VarMap} {log : List String} {nd : BaseNode}
    (hl : lookupNode nodes nid = some nd) :
    runNodes nodes (nid :: rest) st log =
      (match nd.compute st with
       | .error e => .error e
       | .ok st1 => runNodes nodes rest st1 (log ++ [nid])) := by
  rw [runNodes, hl]

theorem runNodes_ok_log (nodes : NodeMap) : ∀ (order : List String) (st : VarMap) (log0 : List String) (st2 : VarMap) (log2 : List String),
    runNodes nodes order st log0 = .ok (st2, log2) →
    log2 = log0 ++ order.filter (fun nid => (lookupNode nodes nid).isSome) := by
  intro order
  induction order with
  | nil =>
      intro st log0 st2 log2 h
      rw [runNodes] at h
      cases h
      simp
  | cons nid rest ih =>
      intro st log0 st2 log2 h
      rw [List.filter_cons]
      cases hl : lookupNode nodes nid with
      | none =>
          rw [runNodes_cons_none hl] at h
          have hrec := ih st log0 st2 log2 h
          rw [hrec]
          simp
      | some nd =>
          rw [runNodes_cons_some hl] at h
          cases hc : nd.compute st with
          | error e =>
              rw [hc] at h
              cases h
          | ok st1 =>
              rw [hc] at h
              have hrec := ih st1 (log0 ++ [nid]) st2 log2 h
              rw [hrec]
              simp

theorem solve_acyclic_eq (cfg : SolverCfg) (nodes : NodeMap) (edges : List (String × String)) (st : VarMap)
    (h : cyclicNodes (buildGraph (nodes.map Prod.fst) edges) = []) :
    solve cfg nodes edges st = runNodes nodes (kahnSort (buildGraph (nodes.map Prod.fst) edges)) st [] := by
  rw [solve]
  simp only [h]
  rfl

/-- C1: on every cycle-free graph, `solve` runs the nodes in a Kahn
topological order — for each edge (u, v) with both endpoints in the
node map, u is invoked before v — and on the concrete chain A→B→C the
order is A, B, C with the values 2, 4, 14 propagating through the
shared store. -/
theorem claim_C1 :
    (∀ (cfg : SolverCfg) (nodes : NodeMap) (edges : List (String × String)) (st stF : VarMap) (order : List String),
       (¬ ∃ w, Reach (buildGraph (nodes.map Prod.fst) edges) w w) →
       solve cfg nodes edges st = .ok (stF, order) →
       ∀ u v, (u, v) ∈ edges → u ∈ nodes.map Prod.fst → v ∈ nodes.map Prod.fst →
         [u, v].Sublist order) ∧
    (∃ stC, solve defaultCfg chainNodes chainEdges [] = .ok (stC, ["A", "B", "C"]) ∧
       dictGet stC "a_out" 0 = 2 ∧ dictGet stC "b_out" 0 = 4 ∧ dictGet stC "c_out" 0 = 14) := by
  constructor
  · intro cfg nodes edges st stF order hacyc hsolve u v he hu hv
    have hwf := buildGraph_WF (nodes.map Prod.fst) edges
    have hcyc_nil : cyclicNodes (buildGraph (nodes.map Prod.fst) edges) = [] := by
      by_contra hne
      exact hacyc ((hasCycle_iff_cyclicNodes hwf).mpr hne)
    rw [solve_acyclic_eq cfg nodes edges st hcyc_nil] at hsolve
    have hlog := runNodes_ok_log nodes _ st [] stF order hsolve
    rw [List.nil_append] at hlog
    have he2 : (u, v) ∈ (buildGraph (nodes.map Prod.fst) edges).edges := mem_buildGraph_edges.mpr he
    have hv2 : v ∈ kahnSort (buildGraph (nodes.map Prod.fst) edges) :=
      kahnSort_complete _ hwf hacyc v (keys_subset_buildGraph v hv)
    have hsub := kahnSort_sound _ hwf he2 hv2
    have hfil := hsub.filter (fun nid => (lookupNode nodes nid).isSome)
    have hpair : [u, v].filter (fun nid => (lookupNode nodes nid).isSome) = [u, v] := by
      have hu3 : (lookupNode nodes u).isSome = true := alookup_isSome.mpr hu
      have hv3 : (lookupNode nodes v).isSome = true := alookup_isSome.mpr hv
      rw [List.filter_cons, List.filter_cons, hu3, hv3]
      simp
    rw [hpair] at hfil
    rw [hlog]
    exact hfil
  · refine ⟨[("a_out", 2), ("b_out", 4), ("c_out", 14)], ?_, by decide, by decide, by decide⟩
    have hcyc : cyclicNodes (buildGraph (chainNodes.map Prod.fst) chainEdges) = [] := by
      with_unfolding_all decide
    rw [solve_acyclic_eq defaultCfg chainNodes chainEdges [] hcyc]
    with_unfolding_all decide

/-- C1 witness: the general ordering statement applied to the concrete
chain and its edge (A, B). -/
theorem claim_C1_witness :
    solve defaultCfg chainNodes chainEdges [] =
      .ok ([("a_out", 2), ("b_out", 4), ("c_out", 14)], ["A", "B", "C"]) ∧
    ["A", "B"].Sublist ["A", "B", "C"] := by
  have hacyc : ¬ ∃ w, Reach (buildGraph (chainNodes.map Prod.fst) chainEdges) w w :=
    acyclic_of_rank (fun s => if s = "A" then 0 else if s = "B" then 1 else 2) (by decide)
  have hsolve : solve defaultCfg chainNodes chainEdges [] =
      .ok ([("a_out", 2), ("b_out", 4), ("c_out", 14)], ["A", "B", "C"]) := by
    have hcyc : cyclicNodes (buildGraph (chainNodes.map Prod.fst) chainEdges) = [] := by
      with_unfolding_all decide
    rw [solve_acyclic_eq defaultCfg chainNodes chainEdges [] hcyc]
    with_unfolding_all decide
  exact ⟨hsolve, claim_C1.1 defaultCfg chainNodes chainEdges []
    [("a_out", 2), ("b_out", 4), ("c_out", 14)] ["A", "B", "C"] hacyc hsolve
    "A" "B" (by decide) (by decide) (by decide)⟩

/-- C10: on every cycle-free graph the execution order is a
permutation of the node map's keys — each known node computed exactly
once — even when the edge list has dangling endpoints: unknown ids
enter the dependency graph (shaping in-degrees) but are never invoked
and never appear in the order. -/
theorem claim_C10 (cfg : SolverCfg) (nodes : NodeMap) (edges : List (String × String)) (st stF : VarMap) (order : List String)
    (hnd : (nodes.map Prod.fst).Nodup)
    (hacyc : ¬ ∃ w, Reach (buildGraph (nodes.map Prod.fst) edges) w w)
    (hsolve : solve cfg nodes edges st = .ok (stF, order)) :
    order.Perm (nodes.map Prod.fst) ∧ order.Nodup ∧ ∀ v ∈ order, v ∈ nodes.map Prod.fst := by
  have hwf := buildGraph_WF (nodes.map Prod.fst) edges
  have hcyc_nil : cyclicNodes (buildGraph (nodes.map Prod.fst) edges) = [] := by
    by_contra hne
    exact hacyc ((hasCycle_iff_cyclicNodes hwf).mpr hne)
  rw [solve_acyclic_eq cfg nodes edges st hcyc_nil] at hsolve
  have hlog := runNodes_ok_log nodes _ st [] stF order hsolve
  rw [List.nil_append] at hlog
  have hfcongr : (kahnSort (buildGraph (nodes.map Prod.fst) edges)).filter (fun nid => (lookupNode nodes nid).isSome) =
      (kahnSort (buildGraph (nodes.map Prod.fst) edges)).filter (fun n => decide (n ∈ nodes.map Prod.fst)) := by
    refine List.filter_congr ?_
    intro x _
    cases hx : (lookupNode nodes x).isSome
    · have hni : ¬ x ∈ nodes.map Prod.fst := by
        intro hc
        have hc2 : (lookupNode nodes x).isSome = true := alookup_isSome.mpr hc
        rw [hx] at hc2
        cases hc2
      simp [hni]
    · have hmi := alookup_isSome.mp hx
      simp [hmi]
  have hperm : order.Perm ((buildGraph (nodes.map Prod.fst) edges).nodes.filter (fun n => decide (n ∈ nodes.map Prod.fst))) := by
    rw [hlog, hfcongr]
    exact (kahnSort_perm _ hwf hacyc).filter _
  rw [buildGraph_nodes_filter hnd] at hperm
  refine ⟨hperm, ?_, ?_⟩
  · rw [hlog]
    exact (kahnSort_nodup _ hwf).filter _
  · intro v hv
    exact hperm.subset hv

/-- C10 witness: a two-node graph with a dangling edge B→D; the order
is exactly the two known nodes. -/
theorem claim_C10_witness :
    solve defaultCfg
      [("A", .formula ⟨"A", [], ["a"]⟩ (.num 2)), ("B", .formula ⟨"B", [], ["b"]⟩ (.num 5))]
      [("A", "B"), ("B", "D")] [] = .ok ([("a", 2), ("b", 5)], ["A", "B"]) ∧
    (["A", "B"] : List String).Perm
      ([("A", BaseNode.formula ⟨"A", [], ["a"]⟩ (.num 2)), ("B", BaseNode.formula ⟨"B", [], ["b"]⟩ (.num 5))].map Prod.fst) := by
  have hacyc : ¬ ∃ w, Reach (buildGraph
      ([("A", BaseNode.formula ⟨"A", [], ["a"]⟩ (.num 2)), ("B", BaseNode.formula ⟨"B", [], ["b"]⟩ (.num 5))].map Prod.fst)
      [("A", "B"), ("B", "D")]) w w :=
    acyclic_of_rank (fun s => if s = "A" then 0 else if s = "B" then 1 else 2) (by decide)
  have hsolve : solve defaultCfg
      [("A", .formula ⟨"A", [], ["a"]⟩ (.num 2)), ("B", .formula ⟨"B", [], ["b"]⟩ (.num 5))]
      [("A", "B"), ("B", "D")] [] = .ok ([("a", 2), ("b", 5)], ["A", "B"]) := by
    with_unfolding_all decide
  exact ⟨hsolve, (claim_C10 defaultCfg _ _ [] _ ["A", "B"] (by decide) hacyc hsolve).1⟩


/-! ## Cyclic-branch structure lemmas -/

theorem mem_subgraphOn_nodes {g : Digraph} {keep : List String} {x : String} :
    x ∈ (subgraphOn g keep).nodes ↔ x ∈ g.nodes ∧ x ∈ keep := by
  simp [subgraphOn, List.mem_filter]

theorem mem_subgraphOn_edges {g : Digraph} {keep : List String} {e : String × String} :
    e ∈ (subgraphOn g keep).edges ↔ e ∈ g.edges ∧ e.1 ∈ keep ∧ e.2 ∈ keep := by
  simp [subgraphOn, List.mem_filter]

theorem subgraphOn_WF {g : Digraph} (hwf : WF g) (keep : List String) : WF (subgraphOn g keep) := by
  refine ⟨hwf.nodes_nodup.filter _, hwf.edges_nodup.filter _, ?_⟩
  intro e he
  obtain ⟨heg, h1, h2⟩ := mem_subgraphOn_edges.mp he
  obtain ⟨hm1, hm2⟩ := hwf.ends_mem e heg
  exact ⟨mem_subgraphOn_nodes.mpr ⟨hm1, h1⟩, mem_subgraphOn_nodes.mpr ⟨hm2, h2⟩⟩

theorem mem_acyclicKeep {g : Digraph} (hwf : WF g) {x : String} :
    x ∈ acyclicKeep g ↔ x ∈ g.nodes ∧ ¬ Reach g x x := by
  rw [acyclicKeep, List.mem_filter, decide_eq_true_eq]
  constructor
  · rintro ⟨h1, h2⟩
    exact ⟨h1, fun hr => h2 ((mem_cyclicNodes hwf).mpr ⟨h1, hr⟩)⟩
  · rintro ⟨h1, h2⟩
    exact ⟨h1, fun hc => h2 ((mem_cyclicNodes hwf).mp hc).2⟩

theorem acyclicSub_acyclic {g : Digraph} (hwf : WF g) :
    ¬ ∃ w, Reach (subgraphOn g (acyclicKeep g)) w w := by
  rintro ⟨w, hr⟩
  have hrg : Reach g w w := hr.mono (fun e he => (mem_subgraphOn_edges.mp he).1)
  have hw := hr.src_mem (subgraphOn_WF hwf (acyclicKeep g))
  have hk := (mem_acyclicKeep hwf).mp (mem_subgraphOn_nodes.mp hw).2
  exact hk.2 hrg

theorem dependsOnCycleB_iff {g : Digraph} (hwf : WF g) {v : String} :
    dependsOnCycleB g v = true ↔ ∃ p, (p, v) ∈ g.edges ∧ Reach g p p := by
  rw [dependsOnCycleB, List.any_eq_true]
  constructor
  · rintro ⟨p, hp, hd⟩
    rw [decide_eq_true_eq] at hd
    exact ⟨p, mem_predecessors.mp hp, ((mem_cyclicNodes hwf).mp hd).2⟩
  · rintro ⟨p, hp, hr⟩
    refine ⟨p, mem_predecessors.mpr hp, ?_⟩
    rw [decide_eq_true_eq]
    exact (mem_cyclicNodes hwf).mpr ⟨(hwf.ends_mem _ hp).1, hr⟩

theorem mem_kahnSort_acyclicSub {g : Digraph} (hwf : WF g) {v : String} :
    v ∈ kahnSort (subgraphOn g (acyclicKeep g)) ↔ v ∈ g.nodes ∧ ¬ Reach g v v := by
  constructor
  · intro h
    have hm := kahnSort_subset _ (subgraphOn_WF hwf _) v h
    exact (mem_acyclicKeep hwf).mp (mem_subgraphOn_nodes.mp hm).2
  · intro h
    refine kahnSort_complete _ (subgraphOn_WF hwf _) (acyclicSub_acyclic hwf) v ?_
    exact mem_subgraphOn_nodes.mpr ⟨h.1, (mem_acyclicKeep hwf).mpr h⟩

theorem mem_preOrder {g : Digraph} (hwf : WF g) {v : String} :
    v ∈ preOrder g ↔ v ∈ g.nodes ∧ ¬ Reach g v v ∧ ∀ p, (p, v) ∈ g.edges → ¬ Reach g p p := by
  rw [preOrder, List.mem_filter]
  constructor
  · rintro ⟨hk, hd⟩
    obtain ⟨h1, h2⟩ := (mem_kahnSort_acyclicSub hwf).mp hk
    refine ⟨h1, h2, ?_⟩
    intro p hp hr
    have hdt : dependsOnCycleB g v = true := (dependsOnCycleB_iff hwf).mpr ⟨p, hp, hr⟩
    rw [hdt] at hd
    cases hd
  · rintro ⟨h1, h2, h3⟩
    refine ⟨(mem_kahnSort_acyclicSub hwf).mpr ⟨h1, h2⟩, ?_⟩
    cases hdb : dependsOnCycleB g v
    · rfl
    · obtain ⟨p, hp, hr⟩ := (dependsOnCycleB_iff hwf).mp hdb
      exact absurd hr (h3 p hp)

theorem mem_postOrder {g : Digraph} (hwf : WF g) {v : String} :
    v ∈ postOrder g ↔ v ∈ g.nodes ∧ ¬ Reach g v v ∧ ∃ p, (p, v) ∈ g.edges ∧ Reach g p p := by
  rw [postOrder, List.mem_filter]
  constructor
  · rintro ⟨hk, hd⟩
    obtain ⟨h1, h2⟩ := (mem_kahnSort_acyclicSub hwf).mp hk
    exact ⟨h1, h2, (dependsOnCycleB_iff hwf).mp hd⟩
  · rintro ⟨h1, h2, h3⟩
    exact ⟨(mem_kahnSort_acyclicSub hwf).mpr ⟨h1, h2⟩, (dependsOnCycleB_iff hwf).mpr h3⟩

theorem preOrder_sound {g : Digraph} (hwf : WF g) {u v : String} (he : (u, v) ∈ g.edges)
    (hu : u ∈ preOrder g) (hv : v ∈ preOrder g) : [u, v].Sublist (preOrder g) := by
  rw [preOrder] at hu hv ⊢
  obtain ⟨hku, hpu⟩ := List.mem_filter.mp hu
  obtain ⟨hkv, hpv⟩ := List.mem_filter.mp hv
  have hesub : (u, v) ∈ (subgraphOn g (acyclicKeep g)).edges := by
    refine mem_subgraphOn_edges.mpr ⟨he, ?_, ?_⟩
    · exact (mem_acyclicKeep hwf).mpr ((mem_kahnSort_acyclicSub hwf).mp hku)
    · exact (mem_acyclicKeep hwf).mpr ((mem_kahnSort_acyclicSub hwf).mp hkv)
  have hsub := kahnSort_sound _ (subgraphOn_WF hwf _) hesub hkv
  have hfil := hsub.filter (fun nid => ! dependsOnCycleB g nid)
  have hpair : [u, v].filter (fun nid => ! dependsOnCycleB g nid) = [u, v] := by
    simp [List.filter_cons, hpu, hpv]
  rw [hpair] at hfil
  exact hfil

theorem postOrder_sound {g : Digraph} (hwf : WF g) {u v : String} (he : (u, v) ∈ g.edges)
    (hu : u ∈ postOrder g) (hv : v ∈ postOrder g) : [u, v].Sublist (postOrder g) := by
  rw [postOrder] at hu hv ⊢
  obtain ⟨hku, hpu⟩ := List.mem_filter.mp hu
  obtain ⟨hkv, hpv⟩ := List.mem_filter.mp hv
  have hesub : (u, v) ∈ (subgraphOn g (acyclicKeep g)).edges := by
    refine mem_subgraphOn_edges.mpr ⟨he, ?_, ?_⟩
    · exact (mem_acyclicKeep hwf).mpr ((mem_kahnSort_acyclicSub hwf).mp hku)
    · exact (mem_acyclicKeep hwf).mpr ((mem_kahnSort_acyclicSub hwf).mp hkv)
  have hsub := kahnSort_sound _ (subgraphOn_WF hwf _) hesub hkv
  have hfil := hsub.filter (fun nid => dependsOnCycleB g nid)
  have hpair : [u, v].filter (fun nid => dependsOnCycleB g nid) = [u, v] := by
    simp [List.filter_cons, hpu, hpv]
  rw [hpair] at hfil
  exact hfil

theorem resolveCycleOrder_perm (g : Digraph) (cyc : List String) :
    (resolveCycleOrder g cyc).Perm cyc :=
  List.mergeSort_perm cyc _

theorem solve_cyclic_eq (cfg : SolverCfg) (nodes : NodeMap) (edges : List (String × String)) (st : VarMap)
    (hne : (cyclicNodes (buildGraph (nodes.map Prod.fst) edges)).isEmpty = false) :
    solve cfg nodes edges st =
      (match runNodes nodes (preOrder (solveGraph nodes edges)) st [] with
       | .error e => .error e
       | .ok (s1, l1) =>
         (match iterateConverged cfg nodes
             (resolveCycleOrder (solveGraph nodes edges) (cyclicNodes (solveGraph nodes edges))) s1 with
          | .error e => .error e
          | .ok (s2, l2) =>
            (match runNodes nodes (postOrder (solveGraph nodes edges)) s2 [] with
             | .error e => .error e
             | .ok (s3, l3) => .ok (s3, l1 ++ l2 ++ l3)))) := by
  rw [solve]
  simp only [hne, Bool.false_eq_true, if_false]
  rfl

theorem iterGo_log_mem (cfg : SolverCfg) (nodes : NodeMap) (co : List String) :
    ∀ (fuel : Nat) (st : VarMap) (log0 : List String) (st2 : VarMap) (log2 : List String),
    iterGo cfg nodes co fuel st log0 = .ok (st2, log2) →
    ∀ v ∈ log2, v ∈ log0 ∨ (v ∈ co ∧ (lookupNode nodes v).isSome = true) := by
  intro fuel
  induction fuel with
  | zero =>
    intro st log0 st2 log2 h v hv
    rw [iterGo] at h
    cases h
    exact Or.inl hv
  | succ m ih =>
    intro st log0 st2 log2 h v hv
    cases hr : runNodes nodes co st [] with
    | error e =>
      rw [iterGo, hr] at h
      cases h
    | ok p =>
      obtain ⟨s1, passLog⟩ := p
      have hpass : passLog = co.filter (fun nid => (lookupNode nodes nid).isSome) := by
        have hlg := runNodes_ok_log nodes co st [] s1 passLog hr
        simpa using hlg
      cases hd : deltaLt (delta s1 st) cfg.convergence_threshold with
      | true =>
        rw [iterGo_step_stop cfg nodes co m st log0 s1 passLog hr hd] at h
        cases h
        rcases List.mem_append.mp hv with h1 | h1
        · exact Or.inl h1
        · rw [hpass] at h1
          obtain ⟨h2, h3⟩ := List.mem_filter.mp h1
          exact Or.inr ⟨h2, h3⟩
      | false =>
        rw [iterGo_step_continue cfg nodes co m st log0 s1 passLog hr hd] at h
        rcases ih s1 (log0 ++ passLog) st2 log2 h v hv with h1 | h1
        · rcases List.mem_append.mp h1 with h2 | h2
          · exact Or.inl h2
          · rw [hpass] at h2
            obtain ⟨h3, h4⟩ := List.mem_filter.mp h2
            exact Or.inr ⟨h3, h4⟩
        · exact Or.inr h1

/-- C2: on every graph with a cycle, the execution order decomposes as
pre-cycle nodes, then the cyclic block, then post-cycle nodes: the
pre-cycle segment holds exactly the known non-cyclic nodes none of
whose direct predecessors is cyclic, the post-cycle segment exactly
the known non-cyclic nodes with a cyclic direct predecessor, every
cyclic-block entry is a known cyclic node, and both acyclic segments
are topologically ordered (edge sources precede edge targets). -/
theorem claim_C2 (cfg : SolverCfg) (nodes : NodeMap) (edges : List (String × String)) (st stF : VarMap) (order : List String)
    (hcyc : ∃ w, Reach (buildGraph (nodes.map Prod.fst) edges) w w)
    (hsolve : solve cfg nodes edges st = .ok (stF, order)) :
    ∃ preLog cycLog postLog,
      order = preLog ++ cycLog ++ postLog ∧
      (∀ v, v ∈ preLog ↔ v ∈ nodes.map Prod.fst ∧
        ¬ Reach (buildGraph (nodes.map Prod.fst) edges) v v ∧
        ∀ p, (p, v) ∈ edges → ¬ Reach (buildGraph (nodes.map Prod.fst) edges) p p) ∧
      (∀ v, v ∈ postLog ↔ v ∈ nodes.map Prod.fst ∧
        ¬ Reach (buildGraph (nodes.map Prod.fst) edges) v v ∧
        ∃ p, (p, v) ∈ edges ∧ Reach (buildGraph (nodes.map Prod.fst) edges) p p) ∧
      (∀ v ∈ cycLog, v ∈ nodes.map Prod.fst ∧ Reach (buildGraph (nodes.map Prod.fst) edges) v v) ∧
      (∀ u v, (u, v) ∈ edges → u ∈ preLog → v ∈ preLog → [u, v].Sublist preLog) ∧
      (∀ u v, (u, v) ∈ edges → u ∈ postLog → v ∈ postLog → [u, v].Sublist postLog) := by
  have hwf := buildGraph_WF (nodes.map Prod.fst) edges
  have hgw : WF (solveGraph nodes edges) := hwf
  have hnn : cyclicNodes (buildGraph (nodes.map Prod.fst) edges) ≠ [] :=
    (hasCycle_iff_cyclicNodes hwf).mp hcyc
  have hne : (cyclicNodes (buildGraph (nodes.map Prod.fst) edges)).isEmpty = false := by
    cases hc : cyclicNodes (buildGraph (nodes.map Prod.fst) edges) with
    | nil => exact absurd hc hnn
    | cons a t => rfl
  rw [solve_cyclic_eq cfg nodes edges st hne] at hsolve
  cases h1 : runNodes nodes (preOrder (solveGraph nodes edges)) st [] with
  | error e =>
    rw [h1] at hsolve
    cases hsolve
  | ok p1 =>
    obtain ⟨s1, l1⟩ := p1
    rw [h1] at hsolve
    have hsolve2 : (match iterateConverged cfg nodes
        (resolveCycleOrder (solveGraph nodes edges) (cyclicNodes (solveGraph nodes edges))) s1 with
      | .error e => (Except.error e : Except EvalErr (VarMap × List String))
      | .ok (s2, l2) =>
        (match runNodes nodes (postOrder (solveGraph nodes edges)) s2 [] with
         | .error e => .error e
         | .ok (s3, l3) => .ok (s3, l1 ++ l2 ++ l3))) = .ok (stF, order) := hsolve
    cases h2 : iterateConverged cfg nodes
        (resolveCycleOrder (solveGraph nodes edges) (cyclicNodes (solveGraph nodes edges))) s1 with
    | error e =>
      rw [h2] at hsolve2
      cases hsolve2
    | ok p2 =>
      obtain ⟨s2, l2⟩ := p2
      rw [h2] at hsolve2
      have hsolve3 : (match runNodes nodes (postOrder (solveGraph nodes edges)) s2 [] with
        | .error e => (Except.error e : Except EvalErr (VarMap × List String))
        | .ok (s3, l3) => .ok (s3, l1 ++ l2 ++ l3)) = .ok (stF, order) := hsolve2
      cases h3 : runNodes nodes (postOrder (solveGraph nodes edges)) s2 [] with
      | error e =>
        rw [h3] at hsolve3
        cases hsolve3
      | ok p3 =>
        obtain ⟨s3, l3⟩ := p3
        rw [h3] at hsolve3
        have hinj : s3 = stF ∧ l1 ++ l2 ++ l3 = order := by
          simpa only [Except.ok.injEq, Prod.mk.injEq] using hsolve3
        have hl1 : l1 = (preOrder (solveGraph nodes edges)).filter (fun nid => (lookupNode nodes nid).isSome) := by
          have hlg := runNodes_ok_log nodes (preOrder (solveGraph nodes edges)) st [] s1 l1 h1
          simpa using hlg
        have hl3 : l3 = (postOrder (solveGraph nodes edges)).filter (fun nid => (lookupNode nodes nid).isSome) := by
          have hlg := runNodes_ok_log nodes (postOrder (solveGraph nodes edges)) s2 [] s3 l3 h3
          simpa using hlg
        refine ⟨l1, l2, l3, hinj.2.symm, ?_, ?_, ?_, ?_, ?_⟩
        · intro v
          rw [hl1, List.mem_filter]
          constructor
          · rintro ⟨hvp, hvs⟩
            obtain ⟨h1n, h2n, h3n⟩ := (mem_preOrder hgw).mp hvp
            refine ⟨alookup_isSome.mp hvs, h2n, ?_⟩
            intro p hp
            exact h3n p (mem_buildGraph_edges.mpr hp)
          · rintro ⟨hvk, hvr, hvp⟩
            refine ⟨(mem_preOrder hgw).mpr ⟨keys_subset_buildGraph v hvk, hvr, ?_⟩, alookup_isSome.mpr hvk⟩
            intro p hp
            exact hvp p (mem_buildGraph_edges.mp hp)
        · intro v
          rw [hl3, List.mem_filter]
          constructor
          · rintro ⟨hvp, hvs⟩
            obtain ⟨h1n, h2n, h3n⟩ := (mem_postOrder hgw).mp hvp
            obtain ⟨p, hp, hpr⟩ := h3n
            exact ⟨alookup_isSome.mp hvs, h2n, p, mem_buildGraph_edges.mp hp, hpr⟩
          · rintro ⟨hvk, hvr, p, hp, hpr⟩
            refine ⟨(mem_postOrder hgw).mpr
              ⟨keys_subset_buildGraph v hvk, hvr, p, mem_buildGraph_edges.mpr hp, hpr⟩,
              alookup_isSome.mpr hvk⟩
        · intro v hv
          rw [iterateConverged] at h2
          rcases iterGo_log_mem cfg nodes _ cfg.max_iterations s1 [] s2 l2 h2 v hv with hm | ⟨hco, hsome⟩
          · exact absurd hm (List.not_mem_nil v)
          · refine ⟨alookup_isSome.mp hsome, ?_⟩
            have hcy : v ∈ cyclicNodes (solveGraph nodes edges) :=
              (resolveCycleOrder_perm (solveGraph nodes edges)
                (cyclicNodes (solveGraph nodes edges))).mem_iff.mp hco
            exact ((mem_cyclicNodes hgw).mp hcy).2
        · intro u v he hu hv
          rw [hl1] at hu hv ⊢
          obtain ⟨hup, hus⟩ := List.mem_filter.mp hu
          obtain ⟨hvp2, hvs⟩ := List.mem_filter.mp hv
          have hsub := preOrder_sound hgw (mem_buildGraph_edges.mpr he) hup hvp2
          have hfil := hsub.filter (fun nid => (lookupNode nodes nid).isSome)
          have hpair : [u, v].filter (fun nid => (lookupNode nodes nid).isSome) = [u, v] := by
            simp [List.filter_cons, hus, hvs]
          rw [hpair] at hfil
          exact hfil
        · intro u v he hu hv
          rw [hl3] at hu hv ⊢
          obtain ⟨hup, hus⟩ := List.mem_filter.mp hu
          obtain ⟨hvp2, hvs⟩ := List.mem_filter.mp hv
          have hsub := postOrder_sound hgw (mem_buildGraph_edges.mpr he) hup hvp2
          have hfil := hsub.filter (fun nid => (lookupNode nodes nid).isSome)
          have hpair : [u, v].filter (fun nid => (lookupNode nodes nid).isSome) = [u, v] := by
            simp [List.filter_cons, hus, hvs]
          rw [hpair] at hfil
          exact hfil

/-- C2 witness: the two-node feedback loop X↔Y; the whole order is the
cyclic block, with empty pre- and post-cycle segments. -/
theorem claim_C2_witness :
    ∃ preLog cycLog postLog,
      (["X", "Y", "X", "Y", "X", "Y", "X", "Y", "X", "Y", "X", "Y"] : List String) =
        preLog ++ cycLog ++ postLog ∧
      (∀ v, v ∈ preLog ↔ v ∈ fbNodes.map Prod.fst ∧
        ¬ Reach (buildGraph (fbNodes.map Prod.fst) fbEdges) v v ∧
        ∀ p, (p, v) ∈ fbEdges → ¬ Reach (buildGraph (fbNodes.map Prod.fst) fbEdges) p p) ∧
      (∀ v, v ∈ postLog ↔ v ∈ fbNodes.map Prod.fst ∧
        ¬ Reach (buildGraph (fbNodes.map Prod.fst) fbEdges) v v ∧
        ∃ p, (p, v) ∈ fbEdges ∧ Reach (buildGraph (fbNodes.map Prod.fst) fbEdges) p p) ∧
      (∀ v ∈ cycLog, v ∈ fbNodes.map Prod.fst ∧ Reach (buildGraph (fbNodes.map Prod.fst) fbEdges) v v) ∧
      (∀ u v, (u, v) ∈ fbEdges → u ∈ preLog → v ∈ preLog → [u, v].Sublist preLog) ∧
      (∀ u v, (u, v) ∈ fbEdges → u ∈ postLog → v ∈ postLog → [u, v].Sublist postLog) :=
  claim_C2 defaultCfg fbNodes fbEdges fbInit fbS6
    ["X", "Y", "X", "Y", "X", "Y", "X", "Y", "X", "Y", "X", "Y"]
    ⟨"X", Reach.tail
      (show Reach (buildGraph (fbNodes.map Prod.fst) fbEdges) "X" "Y" from Reach.single (by decide))
      (by decide)⟩ fbSolve

/-! ## Convergence-loop lemmas -/

theorem deltaLt_iff (d : WithTop ℚ) (t : ℚ) : deltaLt d t = true ↔ d < (t : WithTop ℚ) := by
  cases d with
  | top =>
    constructor
    · intro h
      cases h
    · intro h
      exact absurd h not_top_lt
  | coe q =>
    show decide (q < t) = true ↔ _
    rw [decide_eq_true_eq]
    exact (WithTop.coe_lt_coe).symm

theorem iterStates_succ_ok {nodes : NodeMap} {co : List String} {st s1 : VarMap} {l : List String} (k : Nat)
    (hr : runNodes nodes co st [] = .ok (s1, l)) :
    iterStates nodes co (k + 1) st = iterStates nodes co k s1 := by
  rw [iterStates, hr]

theorem iterStates_succ_err {nodes : NodeMap} {co : List String} {st : VarMap} {e : EvalErr} (k : Nat)
    (hr : runNodes nodes co st [] = .error e) :
    iterStates nodes co (k + 1) st = .error e := by
  rw [iterStates, hr]

theorem count_flatten_replicate (k : Nat) (l : List String) (v : String) :
    ((List.replicate k l).flatten).count v = k * l.count v := by
  induction k with
  | zero => simp
  | succ n ih =>
    simp [List.replicate_succ, List.flatten_cons, List.count_append, ih, Nat.succ_mul]
    omega

theorem resolveCycleOrder_sorted (g : Digraph) (cyc : List String) :
    (resolveCycleOrder g cyc).Pairwise
      (fun a b => inDeg0 (subgraphOn g cyc) a ≤ inDeg0 (subgraphOn g cyc) b) := by
  have htrans : ∀ (a b c : String),
      (fun a b => decide (inDeg0 (subgraphOn g cyc) a ≤ inDeg0 (subgraphOn g cyc) b)) a b →
      (fun a b => decide (inDeg0 (subgraphOn g cyc) a ≤ inDeg0 (subgraphOn g cyc) b)) b c →
      (fun a b => decide (inDeg0 (subgraphOn g cyc) a ≤ inDeg0 (subgraphOn g cyc) b)) a c := by
    intro a b c h1 h2
    simp only [decide_eq_true_eq] at h1 h2 ⊢
    exact le_trans h1 h2
  have htotal : ∀ (a b : String),
      ((fun a b => decide (inDeg0 (subgraphOn g cyc) a ≤ inDeg0 (subgraphOn g cyc) b)) a b ||
       (fun a b => decide (inDeg0 (subgraphOn g cyc) a ≤ inDeg0 (subgraphOn g cyc) b)) b a) := by
    intro a b
    rcases le_total (inDeg0 (subgraphOn g cyc) a) (inDeg0 (subgraphOn g cyc) b) with h | h
    · simp [h]
    · simp [h]
  have hs := @List.sorted_mergeSort String
    (fun a b => decide (inDeg0 (subgraphOn g cyc) a ≤ inDeg0 (subgraphOn g cyc) b))
    htrans htotal cyc
  refine List.Pairwise.imp ?_ hs
  intro a b h
  exact decide_eq_true_eq.mp h

theorem iterGo_spec (cfg : SolverCfg) (nodes : NodeMap) (co : List String) :
    ∀ (fuel : Nat) (st : VarMap) (log0 : List String) (st2 : VarMap) (log2 : List String),
    iterGo cfg nodes co fuel st log0 = .ok (st2, log2) →
    ∃ k, k ≤ fuel ∧ (1 ≤ fuel → 1 ≤ k) ∧
      log2 = log0 ++ (List.replicate k (co.filter (fun v => (lookupNode nodes v).isSome))).flatten ∧
      iterStates nodes co k st = .ok st2 ∧
      (∀ i, i + 1 < k → ∀ q1 q2, iterStates nodes co i st = .ok q1 →
        iterStates nodes co (i + 1) st = .ok q2 →
        deltaLt (delta q2 q1) cfg.convergence_threshold = false) ∧
      (k < fuel → ∃ j, j + 1 = k ∧ ∀ q1 q2, iterStates nodes co j st = .ok q1 →
        iterStates nodes co (j + 1) st = .ok q2 →
        deltaLt (delta q2 q1) cfg.convergence_threshold = true) := by
  intro fuel
  induction fuel with
  | zero =>
    intro st log0 st2 log2 h
    rw [iterGo] at h
    cases h
    refine ⟨0, Nat.le_refl 0, ?_, by simp, ?_, ?_, ?_⟩
    · intro h1
      exact absurd h1 (by omega)
    · rw [iterStates]
    · intro i hi
      exact absurd hi (by omega)
    · intro hlt
      exact absurd hlt (by omega)
  | succ m ih =>
    intro st log0 st2 log2 h
    cases hr : runNodes nodes co st [] with
    | error e =>
      rw [iterGo, hr] at h
      cases h
    | ok p =>
      obtain ⟨s1, passLog⟩ := p
      have hpass : passLog = co.filter (fun v => (lookupNode nodes v).isSome) := by
        simpa using runNodes_ok_log nodes co st [] s1 passLog hr
      cases hd : deltaLt (delta s1 st) cfg.convergence_threshold with
      | true =>
        rw [iterGo_step_stop cfg nodes co m st log0 s1 passLog hr hd] at h
        have hinj : s1 = st2 ∧ log0 ++ passLog = log2 := by
          simpa only [Except.ok.injEq, Prod.mk.injEq] using h
        obtain ⟨hs, hl⟩ := hinj
        refine ⟨1, by omega, fun _ => Nat.le_refl 1, ?_, ?_, ?_, ?_⟩
        · rw [← hl, hpass]
          simp
        · rw [← hs]
          show iterStates nodes co (0 + 1) st = .ok s1
          rw [iterStates_succ_ok 0 hr, iterStates]
        · intro i hi
          exact absurd hi (by omega)
        · intro hlt
          refine ⟨0, rfl, ?_⟩
          intro q1 q2 hq1 hq2
          rw [iterStates] at hq1
          cases hq1
          rw [iterStates_succ_ok 0 hr, iterStates] at hq2
          cases hq2
          exact hd
      | false =>
        rw [iterGo_step_continue cfg nodes co m st log0 s1 passLog hr hd] at h
        obtain ⟨k, hk1, hk2, hlog, hst, hmid, hlast⟩ := ih s1 (log0 ++ passLog) st2 log2 h
        refine ⟨k + 1, by omega, fun _ => by omega, ?_, ?_, ?_, ?_⟩
        · rw [hlog, hpass]
          simp [List.replicate_succ, List.flatten_cons, List.append_assoc]
        · rw [iterStates_succ_ok k hr]
          exact hst
        · intro i hi q1 q2 hq1 hq2
          cases i with
          | zero =>
            rw [iterStates] at hq1
            cases hq1
            rw [iterStates_succ_ok 0 hr, iterStates] at hq2
            cases hq2
            exact hd
          | succ i2 =>
            rw [iterStates_succ_ok i2 hr] at hq1
            rw [iterStates_succ_ok (i2 + 1) hr] at hq2
            exact hmid i2 (by omega) q1 q2 hq1 hq2
        · intro hklt
          obtain ⟨j, hj, hcond⟩ := hlast (by omega)
          refine ⟨j + 1, by omega, ?_⟩
          intro q1 q2 hq1 hq2
          rw [iterStates_succ_ok j hr] at hq1
          rw [iterStates_succ_ok (j + 1) hr] at hq2
          exact hcond q1 q2 hq1 hq2

theorem iterGo_ok_of_states (cfg : SolverCfg) (nodes : NodeMap) (co : List String) :
    ∀ (fuel : Nat) (st : VarMap) (log0 : List String) (s : VarMap),
    iterStates nodes co fuel st = .ok s →
    ∃ r, iterGo cfg nodes co fuel st log0 = .ok r := by
  intro fuel
  induction fuel with
  | zero =>
    intro st log0 s h
    exact ⟨(st, log0), by rw [iterGo]⟩
  | succ m ih =>
    intro st log0 s h
    cases hr : runNodes nodes co st [] with
    | error e =>
      rw [iterStates_succ_err m hr] at h
      cases h
    | ok p =>
      obtain ⟨s1, l⟩ := p
      rw [iterStates_succ_ok m hr] at h
      cases hd : deltaLt (delta s1 st) cfg.convergence_threshold with
      | true =>
        exact ⟨(s1, log0 ++ l), iterGo_step_stop cfg nodes co m st log0 s1 l hr hd⟩
      | false =>
        obtain ⟨r, hrgo⟩ := ih s1 (log0 ++ l) s h
        refine ⟨r, ?_⟩
        rw [iterGo_step_continue cfg nodes co m st log0 s1 l hr hd]
        exact hrgo

/-- C3 (amended): the cyclic block sorts the cyclic nodes once by
ascending in-degree within the induced subgraph; a run of
`_iterate_until_converged` that returns normally made some k passes,
1 ≤ k ≤ max_iterations, each appending every known cyclic node exactly
once, in the fixed order, to the execution log; iteration stops as
soon as the delta between a pass's result and its pre-pass snapshot
falls below the convergence threshold (no earlier pass met the test,
and a stop before the budget means the final pass did); with at least
one allowed iteration, exhausting the budget without an exception
still returns a result — no error — carrying the state of the last
pass, but with a zero budget the function instead crashes (the
for-else epilogue reads the never-assigned snapshot); the defaults are
100 iterations and threshold 0.001. -/
theorem claim_C3 (cfg : SolverCfg) (nodes : NodeMap) (g : Digraph) (hwf : WF g) :
    ((resolveCycleOrder g (cyclicNodes g)).Perm (cyclicNodes g) ∧
     (resolveCycleOrder g (cyclicNodes g)).Pairwise
       (fun a b => inDeg0 (subgraphOn g (cyclicNodes g)) a ≤ inDeg0 (subgraphOn g (cyclicNodes g)) b)) ∧
    (∀ st st2 log, iterateConvergedFull cfg nodes (resolveCycleOrder g (cyclicNodes g)) st = some (.ok (st2, log)) →
      ∃ k, 1 ≤ k ∧ k ≤ cfg.max_iterations ∧
        log = (List.replicate k ((resolveCycleOrder g (cyclicNodes g)).filter
          (fun v => (lookupNode nodes v).isSome))).flatten ∧
        (∀ v ∈ cyclicNodes g, (lookupNode nodes v).isSome = true → log.count v = k) ∧
        iterStates nodes (resolveCycleOrder g (cyclicNodes g)) k st = .ok st2 ∧
        (∀ i, i + 1 < k → ∀ q1 q2,
          iterStates nodes (resolveCycleOrder g (cyclicNodes g)) i st = .ok q1 →
          iterStates nodes (resolveCycleOrder g (cyclicNodes g)) (i + 1) st = .ok q2 →
          ¬ delta q2 q1 < (cfg.convergence_threshold : WithTop ℚ)) ∧
        (k < cfg.max_iterations → ∃ j, j + 1 = k ∧ ∀ q1 q2,
          iterStates nodes (resolveCycleOrder g (cyclicNodes g)) j st = .ok q1 →
          iterStates nodes (resolveCycleOrder g (cyclicNodes g)) (j + 1) st = .ok q2 →
          delta q2 q1 < (cfg.convergence_threshold : WithTop ℚ))) ∧
    (∀ st, cfg.max_iterations = 0 →
      iterateConvergedFull cfg nodes (resolveCycleOrder g (cyclicNodes g)) st = none) ∧
    (∀ st s, 1 ≤ cfg.max_iterations →
      iterStates nodes (resolveCycleOrder g (cyclicNodes g)) cfg.max_iterations st = .ok s →
      ∃ r, iterateConvergedFull cfg nodes (resolveCycleOrder g (cyclicNodes g)) st = some (.ok r)) ∧
    (defaultCfg.max_iterations = 100 ∧ defaultCfg.convergence_threshold = 1 / 1000) := by
  refine ⟨⟨resolveCycleOrder_perm g (cyclicNodes g), resolveCycleOrder_sorted g (cyclicNodes g)⟩,
    ?_, ?_, ?_, rfl, rfl⟩
  · intro st st2 log hiter
    rw [iterateConvergedFull] at hiter
    by_cases h0 : cfg.max_iterations = 0
    · rw [if_pos h0] at hiter
      cases hiter
    · rw [if_neg h0] at hiter
      injection hiter with hgo
      obtain ⟨k, hk1, hk2, hlog, hst, hmid, hlast⟩ :=
        iterGo_spec cfg nodes (resolveCycleOrder g (cyclicNodes g)) cfg.max_iterations st [] st2 log hgo
      rw [List.nil_append] at hlog
      refine ⟨k, hk2 (by omega), hk1, hlog, ?_, hst, ?_, ?_⟩
      · intro v hv hsome
        have hcynd : (cyclicNodes g).Nodup := hwf.nodes_nodup.filter _
        have hcond : (resolveCycleOrder g (cyclicNodes g)).Nodup :=
          ((resolveCycleOrder_perm g (cyclicNodes g)).nodup_iff).mpr hcynd
        have hvco : v ∈ resolveCycleOrder g (cyclicNodes g) :=
          (resolveCycleOrder_perm g (cyclicNodes g)).mem_iff.mpr hv
        have hvpass : v ∈ (resolveCycleOrder g (cyclicNodes g)).filter
            (fun v => (lookupNode nodes v).isSome) :=
          List.mem_filter.mpr ⟨hvco, hsome⟩
        have hpnd : ((resolveCycleOrder g (cyclicNodes g)).filter
            (fun v => (lookupNode nodes v).isSome)).Nodup :=
          hcond.filter _
        rw [hlog, count_flatten_replicate, List.count_eq_one_of_mem hpnd hvpass, Nat.mul_one]
      · intro i hi q1 q2 hq1 hq2 hltq
        have hb := hmid i hi q1 q2 hq1 hq2
        have hc := (deltaLt_iff (delta q2 q1) cfg.convergence_threshold).mpr hltq
        rw [hb] at hc
        cases hc
      · intro hklt
        obtain ⟨j, hj, hcond⟩ := hlast hklt
        refine ⟨j, hj, ?_⟩
        intro q1 q2 hq1 hq2
        exact (deltaLt_iff (delta q2 q1) cfg.convergence_threshold).mp (hcond q1 q2 hq1 hq2)
  · intro st h0
    rw [iterateConvergedFull, if_pos h0]
  · intro st s h1 hstates
    rw [iterateConvergedFull, if_neg (by omega)]
    obtain ⟨r, hr⟩ := iterGo_ok_of_states cfg nodes (resolveCycleOrder g (cyclicNodes g))
      cfg.max_iterations st [] s hstates
    exact ⟨r, by rw [hr]⟩

/-- C3 witness: the single-node self-loop K (formula k = 5), whose
cyclic block is the sorted singleton; the amended claim instantiated
at the default configuration. -/
theorem claim_C3_witness :
    ((resolveCycleOrder loopGraph (cyclicNodes loopGraph)).Perm (cyclicNodes loopGraph) ∧
     (resolveCycleOrder loopGraph (cyclicNodes loopGraph)).Pairwise
       (fun a b => inDeg0 (subgraphOn loopGraph (cyclicNodes loopGraph)) a ≤
         inDeg0 (subgraphOn loopGraph (cyclicNodes loopGraph)) b)) ∧
    (∀ st st2 log, iterateConvergedFull defaultCfg loopNodes
        (resolveCycleOrder loopGraph (cyclicNodes loopGraph)) st = some (.ok (st2, log)) →
      ∃ k, 1 ≤ k ∧ k ≤ defaultCfg.max_iterations ∧
        log = (List.replicate k ((resolveCycleOrder loopGraph (cyclicNodes loopGraph)).filter
          (fun v => (lookupNode loopNodes v).isSome))).flatten ∧
        (∀ v ∈ cyclicNodes loopGraph, (lookupNode loopNodes v).isSome = true → log.count v = k) ∧
        iterStates loopNodes (resolveCycleOrder loopGraph (cyclicNodes loopGraph)) k st = .ok st2 ∧
        (∀ i, i + 1 < k → ∀ q1 q2,
          iterStates loopNodes (resolveCycleOrder loopGraph (cyclicNodes loopGraph)) i st = .ok q1 →
          iterStates loopNodes (resolveCycleOrder loopGraph (cyclicNodes loopGraph)) (i + 1) st = .ok q2 →
          ¬ delta q2 q1 < (defaultCfg.convergence_threshold : WithTop ℚ)) ∧
        (k < defaultCfg.max_iterations → ∃ j, j + 1 = k ∧ ∀ q1 q2,
          iterStates loopNodes (resolveCycleOrder loopGraph (cyclicNodes loopGraph)) j st = .ok q1 →
          iterStates loopNodes (resolveCycleOrder loopGraph (cyclicNodes loopGraph)) (j + 1) st = .ok q2 →
          delta q2 q1 < (defaultCfg.convergence_threshold : WithTop ℚ))) ∧
    (∀ st, defaultCfg.max_iterations = 0 →
      iterateConvergedFull defaultCfg loopNodes
        (resolveCycleOrder loopGraph (cyclicNodes loopGraph)) st = none) ∧
    (∀ st s, 1 ≤ defaultCfg.max_iterations →
      iterStates loopNodes (resolveCycleOrder loopGraph (cyclicNodes loopGraph))
        defaultCfg.max_iterations st = .ok s →
      ∃ r, iterateConvergedFull defaultCfg loopNodes
        (resolveCycleOrder loopGraph (cyclicNodes loopGraph)) st = some (.ok r)) ∧
    (defaultCfg.max_iterations = 100 ∧ defaultCfg.convergence_threshold = 1 / 1000) :=
  claim_C3 defaultCfg loopNodes loopGraph (buildGraph_WF (loopNodes.map Prod.fst) loopEdges)

/-- C3 counterexample to the unguarded claim: a solver configured with
a zero iteration budget does not "stop without raising any error" when
the budget is exhausted — `_iterate_until_converged`'s `for ... else`
epilogue evaluates `state.delta(snapshot)` with `snapshot` never
assigned and raises `UnboundLocalError` (the `none` outcome), here on
the self-loop K. -/
theorem claim_C3_counterexample :
    iterateConvergedFull ⟨1 / 1000, 0⟩ loopNodes
      (resolveCycleOrder loopGraph (cyclicNodes loopGraph)) [] = none := rfl

end Faulter
